/-
Verification of the snarkVM polynomial evaluation-domain engine (radix-2
FFT/IFFT over finite fields) and the Bowe-Hopwood Pedersen collision-resistant
hash (BHP CRH), as implemented in
  src/algorithms/src/fft/domain.rs
  src/algorithms/src/crh/bhp.rs
The Rust code is shallowly embedded: in-place array mutation becomes explicit
state passing over functions `Nat → F`, machine integers become `Nat`,
fallible code returns `Option`/`Except`.  A panic is modelled as `none`.
-/
import Mathlib

namespace SnarkVM

/-! ## Generic loop machinery

`loopUpTo f k a` runs `a := f i a` for `i = 0, 1, ..., k-1` in increasing
order, the shape of every `for`/`while` loop in the embedded code. -/

def loopUpTo {α : Type _} (f : Nat → α → α) : Nat → α → α
  | 0, a => a
  | k + 1, a => f k (loopUpTo f k a)

/-- Pointwise update of a mutable array modelled as a function. -/
def upd {α : Type _} (a : Nat → α) (i : Nat) (v : α) : Nat → α :=
  fun t => if t = i then v else a t

/-- `a.swap(i, j)` on an array modelled as a function. -/
def swapFn {α : Type _} (a : Nat → α) (i j : Nat) : Nat → α :=
  fun t => if t = i then a j else if t = j then a i else a t

theorem upd_same {α : Type _} (a : Nat → α) (i : Nat) (v : α) : upd a i v i = v := by
  simp [upd]

theorem upd_other {α : Type _} (a : Nat → α) (i t : Nat) (v : α) (h : t ≠ i) :
    upd a i v t = a t := by
  simp [upd, h]

/-! ## Bit reversal (the local `bitreverse` in `serial_radix2_fft`)

Rust:
  let mut r = 0;
  for _ in 0..l   r = (r << 1) | (n & 1); n >>= 1;
  r
-/

def bitreverseAux : Nat → Nat → Nat → Nat
  | 0, _, r => r
  | l + 1, n, r => bitreverseAux l (n >>> 1) ((r <<< 1) ||| (n &&& 1))

/-- `bitreverse n l` reverses the low `l` bits of `n`. -/
def bitreverse (n l : Nat) : Nat := bitreverseAux l n 0

theorem shiftLeft_one_or_and_one (r n : Nat) : (r <<< 1) ||| (n &&& 1) = 2 * r + n % 2 := by
  have h1 : n &&& 1 = n % 2 := Nat.and_one_is_mod n
  have h2 : r <<< 1 = 2 * r := by
    rw [Nat.shiftLeft_eq, pow_one, Nat.mul_comm]
  rw [h1, h2]
  rcases Nat.mod_two_eq_zero_or_one n with h | h
  · simp [h]
  · rw [h]
    apply Nat.eq_of_testBit_eq
    intro i
    rw [Nat.testBit_or]
    cases i with
    | zero => simp [Nat.testBit_zero, Nat.mul_add_mod]
    | succ j =>
      rw [Nat.testBit_succ, Nat.testBit_succ, Nat.testBit_succ]
      have ha : (2 * r + 1) / 2 = r := by omega
      have hb : 2 * r / 2 = r := by omega
      have hc : 1 / 2 = 0 := by omega
      rw [ha, hb, hc]
      simp

theorem bitreverseAux_succ (l n r : Nat) :
    bitreverseAux (l + 1) n r = bitreverseAux l (n / 2) (2 * r + n % 2) := by
  rw [bitreverseAux, shiftLeft_one_or_and_one, Nat.shiftRight_one]

theorem bitreverseAux_eq (l : Nat) :
    ∀ n r, bitreverseAux l n r = r * 2 ^ l + bitreverseAux l n 0 := by
  induction l with
  | zero => intro n r; simp [bitreverseAux]
  | succ l ih =>
    intro n r
    rw [bitreverseAux_succ, ih, bitreverseAux_succ l n 0, ih (n / 2) (2 * 0 + n % 2)]
    ring

theorem bitreverse_succ (n l : Nat) :
    bitreverse n (l + 1) = n % 2 * 2 ^ l + bitreverse (n / 2) l := by
  show bitreverseAux (l + 1) n 0 = n % 2 * 2 ^ l + bitreverseAux l (n / 2) 0
  rw [bitreverseAux_succ, bitreverseAux_eq]
  ring_nf

theorem bitreverse_lt (n : Nat) : ∀ l, bitreverse n l < 2 ^ l := by
  -- the reversal of the low `l` bits fits in `l` bits
  intro l
  induction l generalizing n with
  | zero => simp [bitreverse, bitreverseAux]
  | succ l ih =>
    rw [bitreverse_succ]
    have h1 : bitreverse (n / 2) l < 2 ^ l := ih (n / 2)
    have h2 : n % 2 ≤ 1 := Nat.le_of_lt_succ (Nat.mod_lt n (by omega))
    have : n % 2 * 2 ^ l ≤ 2 ^ l := by
      calc n % 2 * 2 ^ l ≤ 1 * 2 ^ l := Nat.mul_le_mul_right _ h2
      _ = 2 ^ l := by ring
    have hp : 2 ^ (l + 1) = 2 ^ l + 2 ^ l := by ring
    omega

/-- Reversing a number of the shape `b * 2^l + x` (top bit `b`, low bits `x`)
moves the top bit to the bottom. -/
theorem bitreverse_high_bit (l : Nat) :
    ∀ b x, b ≤ 1 → x < 2 ^ l →
      bitreverse (b * 2 ^ l + x) (l + 1) = 2 * bitreverse x l + b := by
  induction l with
  | zero =>
    intro b x hb hx
    interval_cases x
    interval_cases b <;> decide
  | succ l ih =>
    intro b x hb hx
    have hpow : (0:Nat) < 2 ^ l := Nat.pos_pow_of_pos l (by omega)
    have hmod : (b * 2 ^ (l + 1) + x) % 2 = x % 2 := by
      have h2 : b * 2 ^ (l + 1) = 2 * (b * 2 ^ l) := by ring
      rw [h2, Nat.mul_add_mod]
    have hdiv : (b * 2 ^ (l + 1) + x) / 2 = b * 2 ^ l + x / 2 := by
      have h2 : b * 2 ^ (l + 1) + x = 2 * (b * 2 ^ l) + x := by ring_nf
      rw [h2, Nat.mul_add_div (by omega)]
    have hxd : x / 2 < 2 ^ l := by
      have h2 : (2:Nat) ^ (l + 1) = 2 ^ l * 2 := by ring
      omega
    rw [bitreverse_succ, hmod, hdiv, ih b (x / 2) hb hxd, bitreverse_succ]
    ring

theorem bitreverse_involution (l : Nat) : ∀ n, n < 2 ^ l → bitreverse (bitreverse n l) l = n := by
  induction l with
  | zero => intro n hn; interval_cases n; simp [bitreverse, bitreverseAux]
  | succ l ih =>
    intro n hn
    rw [bitreverse_succ n l]
    have hrevlt : bitreverse (n / 2) l < 2 ^ l := bitreverse_lt _ _
    have hmod : n % 2 ≤ 1 := Nat.le_of_lt_succ (Nat.mod_lt n (by omega))
    rw [bitreverse_high_bit l (n % 2) (bitreverse (n / 2) l) hmod hrevlt]
    have hdivlt : n / 2 < 2 ^ l := by
      have h2 : (2:Nat) ^ (l + 1) = 2 ^ l * 2 := by ring
      omega
    rw [ih (n / 2) hdivlt]
    omega

/-- Reversing an even number: the low zero bit becomes a leading zero. -/
theorem bitreverse_even (l b : Nat) : bitreverse (2 * b) (l + 1) = bitreverse b l := by
  rw [bitreverse_succ]
  have h1 : 2 * b % 2 = 0 := by omega
  have h2 : 2 * b / 2 = b := by omega
  rw [h1, h2]
  ring

/-- Reversing an odd number: the low one bit becomes the leading bit. -/
theorem bitreverse_odd (l b : Nat) :
    bitreverse (2 * b + 1) (l + 1) = 2 ^ l + bitreverse b l := by
  rw [bitreverse_succ]
  have h1 : (2 * b + 1) % 2 = 1 := by omega
  have h2 : (2 * b + 1) / 2 = b := by omega
  rw [h1, h2]
  ring

/-! ## The `EvaluationDomain` record (`domain.rs`, lines 54-69)

Machine integers (`u64`, `u32`, `usize`) are embedded as `Nat`; the field
element members keep their names. -/

structure EvaluationDomain (F : Type _) where
  size : Nat
  log_size_of_group : Nat
  size_as_field_element : F
  size_inv : F
  group_gen : F
  group_gen_inv : F
  generator_inv : F

/-- `usize::next_power_of_two`: the smallest power of two greater than or
equal to the input (1 for inputs 0 and 1). -/
def next_power_of_two (n : Nat) : Nat :=
  if n ≤ 1 then 1 else 2 ^ (Nat.log2 (n - 1) + 1)

/-- `u64::trailing_zeros` for nonzero inputs (the only use sites pass a
nonzero power of two). -/
def trailing_zeros (n : Nat) : Nat :=
  if h : n % 2 = 0 ∧ n ≠ 0 then trailing_zeros (n / 2) + 1 else 0
termination_by n
decreasing_by
  exact Nat.div_lt_self (Nat.pos_of_ne_zero h.2) (by omega)

theorem trailing_zeros_two_pow (k : Nat) : trailing_zeros (2 ^ k) = k := by
  induction k with
  | zero => rw [trailing_zeros]; simp
  | succ k ih =>
    rw [trailing_zeros]
    have h1 : 2 ^ (k + 1) % 2 = 0 := by
      have : (2:Nat) ^ (k + 1) = 2 * 2 ^ k := by ring
      omega
    have h2 : (2:Nat) ^ (k + 1) ≠ 0 := by positivity
    have h3 : 2 ^ (k + 1) / 2 = 2 ^ k := by
      have : (2:Nat) ^ (k + 1) = 2 * 2 ^ k := by ring
      omega
    simp only [h1, h2, h3, ne_eq, not_false_iff, and_true, dite_true]
    rw [ih]

theorem next_power_of_two_is_pow (n : Nat) : ∃ k, next_power_of_two n = 2 ^ k := by
  unfold next_power_of_two
  by_cases h : n ≤ 1
  · exact ⟨0, by simp [h]⟩
  · exact ⟨Nat.log2 (n - 1) + 1, by simp [h]⟩

theorem le_next_power_of_two (n : Nat) : n ≤ next_power_of_two n := by
  unfold next_power_of_two
  by_cases h : n ≤ 1
  · simp [h]
  · simp only [h, if_false]
    have h1 : n - 1 < 2 ^ (Nat.log2 (n - 1) + 1) := Nat.lt_log2_self
    omega

theorem next_power_of_two_le {n k : Nat} (h : n ≤ 2 ^ k) : next_power_of_two n ≤ 2 ^ k := by
  unfold next_power_of_two
  by_cases h1 : n ≤ 1
  · simp only [h1, if_true]
    exact Nat.one_le_two_pow
  · simp only [h1, if_false]
    apply Nat.pow_le_pow_right (by omega)
    have hne : n - 1 ≠ 0 := by omega
    have := (Nat.log2_lt hne).mpr (by omega : n - 1 < 2 ^ k)
    omega

/-! ## The field interface consumed by `EvaluationDomain::new`

Modelled from the spec: the prime-field collaborator (snarkvm_fields, not part
of the sources under verification) provides "a root-of-unity generator lookup
for domain sizes that are powers of two up to a field-specific two-adicity
bound", an `inverse` that is `None` exactly on non-invertible inputs, a
`TWO_ADICITY` constant, and a fixed multiplicative generator. -/

structure FieldModel (F : Type _) where
  two_adicity : Nat
  get_root_of_unity : Nat → Option F
  inverse : F → Option F
  ofNat : Nat → F
  multiplicative_generator : F

/-- `EvaluationDomain::new` (`domain.rs`, lines 89-118).  Each `?` in the Rust
source propagates `None`. -/
def EvaluationDomain.new {F : Type _} (M : FieldModel F) (num_coeffs : Nat) :
    Option (EvaluationDomain F) :=
  let size := next_power_of_two num_coeffs
  let log_size_of_group := trailing_zeros size
  if log_size_of_group > M.two_adicity then none
  else
    match M.get_root_of_unity size with
    | none => none
    | some group_gen =>
      let size_as_field_element := M.ofNat size
      match M.inverse size_as_field_element with
      | none => none
      | some size_inv =>
        match M.inverse group_gen, M.inverse M.multiplicative_generator with
        | some group_gen_inv, some generator_inv =>
          some ⟨size, log_size_of_group, size_as_field_element, size_inv, group_gen,
            group_gen_inv, generator_inv⟩
        | _, _ => none

/-- `EvaluationDomain::compute_size_of_domain` (`domain.rs`, lines 122-129). -/
def compute_size_of_domain {F : Type _} (M : FieldModel F) (num_coeffs : Nat) : Option Nat :=
  let size := next_power_of_two num_coeffs
  if trailing_zeros size ≤ M.two_adicity then some size else none

/-! ## `reindex_by_subdomain` (`domain.rs`, lines 273-294)

`self_size` and `other_size` stand for `self.size()` and `other.size()`.
`none` models a Rust panic: the failed `assert!` on the size ordering, or an
integer division by zero. -/

def reindex_by_subdomain (self_size other_size index : Nat) : Option Nat :=
  if self_size < other_size then none
  else if other_size = 0 then none
  else
    let period := self_size / other_size
    if index < other_size then some (index * period)
    else
      let i := index - other_size
      let x := period - 1
      if x = 0 then none
      else some (i + i / x + 1)

theorem card_multiples_range (p m : Nat) (hm : 1 ≤ m) :
    ((Finset.range m).filter (fun j => p ∣ j)).card = (m - 1) / p + 1 := by
  have hset : (Finset.range m).filter (fun j => p ∣ j)
      = insert 0 ((Finset.Ioc 0 (m - 1)).filter (fun j => p ∣ j)) := by
    ext j
    simp only [Finset.mem_filter, Finset.mem_range, Finset.mem_insert, Finset.mem_Ioc]
    constructor
    · rintro ⟨hj, hd⟩
      rcases Nat.eq_zero_or_pos j with h0 | h0
      · exact Or.inl h0
      · exact Or.inr ⟨⟨h0, by omega⟩, hd⟩
    · rintro (h0 | ⟨⟨h1, h2⟩, hd⟩)
      · exact ⟨by omega, h0 ▸ dvd_zero p⟩
      · exact ⟨by omega, hd⟩
  rw [hset, Finset.card_insert_of_not_mem (by simp)]
  rw [Nat.Ioc_filter_dvd_card_eq_div]

theorem card_non_multiples_range (p m : Nat) (hm : 1 ≤ m) :
    ((Finset.range m).filter (fun j => ¬ p ∣ j)).card = m - ((m - 1) / p + 1) := by
  have h := Finset.filter_card_add_filter_neg_card_eq_card
    (s := Finset.range m) (p := fun j => p ∣ j)
  rw [card_multiples_range p m hm] at h
  simp only [Finset.card_range] at h
  omega

/-- C8: on a pair of sizes with `other_size` dividing `self_size`,
`reindex_by_subdomain` maps an index below `other_size` to `index * period`
(the position of the `index`-th subdomain element, i.e. the `index`-th
multiple of `period`), and a larger index to `i + i/(period-1) + 1`, which is
the `(index - other_size)`-th non-multiple of `period` below `self_size` in
increasing order — the claimed position in the native ordering of the
`index`-th element of the concatenation of subdomain and complement. -/
theorem claim_C8 (self_size other_size index : Nat)
    (hdvd : other_size ∣ self_size) (hpos : 0 < other_size)
    (hle : other_size ≤ self_size) (hidx : index < self_size) :
    (index < other_size →
      reindex_by_subdomain self_size other_size index
          = some (index * (self_size / other_size))
        ∧ ((Finset.range (index * (self_size / other_size))).filter
            (fun j => (self_size / other_size) ∣ j)).card = index)
    ∧ (other_size ≤ index →
      reindex_by_subdomain self_size other_size index
          = some ((index - other_size)
              + (index - other_size) / (self_size / other_size - 1) + 1)
        ∧ ((index - other_size) + (index - other_size) / (self_size / other_size - 1) + 1
            < self_size)
        ∧ ¬ (self_size / other_size)
            ∣ ((index - other_size) + (index - other_size) / (self_size / other_size - 1) + 1)
        ∧ ((Finset.range ((index - other_size)
              + (index - other_size) / (self_size / other_size - 1) + 1)).filter
            (fun j => ¬ (self_size / other_size) ∣ j)).card = index - other_size) := by
  set p := self_size / other_size with hp
  have hself : self_size = other_size * p := by
    rw [hp, Nat.mul_div_cancel' hdvd]
  have hppos : 0 < p := by
    rcases Nat.eq_zero_or_pos p with h0 | h0
    · rw [h0, Nat.mul_zero] at hself; omega
    · exact h0
  constructor
  · intro hlt
    constructor
    · unfold reindex_by_subdomain
      have h1 : ¬ self_size < other_size := by omega
      have h2 : ¬ other_size = 0 := by omega
      simp only [h1, if_false, h2, hlt, if_true, hp]
    · rcases Nat.eq_zero_or_pos index with h0 | h0
      · simp [h0]
      · rw [card_multiples_range p _ (Nat.mul_pos h0 hppos)]
        have hd : (index * p - 1) / p = index - 1 := by
          obtain ⟨k, rfl⟩ : ∃ k, index = k + 1 := ⟨index - 1, by omega⟩
          have hmul : (k + 1) * p = p * k + p := by ring
          have hip : (k + 1) * p - 1 = p * k + (p - 1) := by omega
          rw [hip, Nat.mul_add_div hppos, Nat.div_eq_of_lt (by omega)]
          omega
        omega
  · intro hge
    -- here the subdomain is strictly smaller, so period ≥ 2
    have hlt' : other_size < self_size := by omega
    have hp2 : 2 ≤ p := by
      by_contra h2
      have hp1 : p = 1 := by omega
      rw [hp1, Nat.mul_one] at hself
      omega
    set i := index - other_size with hi
    set x := p - 1 with hx
    have hxpos : 0 < x := by omega
    set q := i / x with hq
    set t := i % x with ht
    have hqt : i = q * x + t := by
      have h := Nat.div_add_mod i x
      have hcomm : x * (i / x) = (i / x) * x := Nat.mul_comm _ _
      rw [hq, ht]
      omega
    have htlt : t < x := Nat.mod_lt _ hxpos
    have hr : i + i / x + 1 = q * p + (t + 1) := by
      have : q * p = q * x + q := by
        have : p = x + 1 := by omega
        rw [this]; ring
      omega
    have hilt : i < other_size * x := by
      have hxx : p = x + 1 := by omega
      have hmul : other_size * p = other_size * x + other_size := by rw [hxx]; ring
      omega
    have hqlt : q < other_size := by
      rw [hq]
      exact (Nat.div_lt_iff_lt_mul hxpos).mpr hilt
    have hrlt : i + i / x + 1 < self_size := by
      obtain ⟨k, hk⟩ : ∃ k, other_size = k + 1 := ⟨other_size - 1, by omega⟩
      have hmul : (k + 1) * p = k * p + p := by ring
      have hqk : q * p ≤ k * p := Nat.mul_le_mul_right p (by omega)
      rw [hr, hself, hk]
      omega
    have hrmod : (q * p + (t + 1)) % p = t + 1 := by
      rw [Nat.mul_comm q p, Nat.mul_add_mod]
      exact Nat.mod_eq_of_lt (by omega)
    have hndvd : ¬ p ∣ (i + i / x + 1) := by
      rw [hr, Nat.dvd_iff_mod_eq_zero, hrmod]
      omega
    refine ⟨?_, hrlt, hndvd, ?_⟩
    · unfold reindex_by_subdomain
      have h1 : ¬ self_size < other_size := by omega
      have h2 : ¬ other_size = 0 := by omega
      have h3 : ¬ index < other_size := by omega
      have h4 : ¬ (self_size / other_size - 1) = 0 := by
        rw [← hp]; omega
      simp only [h1, if_false, h2, h3, if_true, h4, ← hp, ← hx, ← hi]
    · rw [card_non_multiples_range p _ (by omega)]
      have hsub : (i + i / x + 1) - 1 = q * p + t := by omega
      have hdiv : (q * p + t) / p = q := by
        rw [Nat.mul_comm q p, Nat.mul_add_div hppos, Nat.div_eq_of_lt (by omega)]
        omega
      rw [hsub, hdiv, hr]
      omega

/-- C10: `reindex_by_subdomain` never panics when `self.size() > other.size()`
(both being powers of two), but when the two sizes are equal and the index is
at least `other.size()`, the `i / x` in the complement branch divides by
`x = period - 1 = 0`, a panic (modelled by `none`) despite the asserted
precondition `self.size() >= other.size()` holding. -/
theorem claim_C10 (a b index : Nat) :
    (2 ^ b < 2 ^ a → (reindex_by_subdomain (2 ^ a) (2 ^ b) index).isSome)
    ∧ (2 ^ b ≤ index → reindex_by_subdomain (2 ^ b) (2 ^ b) index = none) := by
  constructor
  · intro hlt
    have hba : b ≤ a := by
      by_contra hcon
      have : 2 ^ a ≤ 2 ^ b := Nat.pow_le_pow_right (by omega) (by omega)
      omega
    have hdiv : 2 ^ a / 2 ^ b = 2 ^ (a - b) := Nat.pow_div hba (by omega)
    have hab : 1 ≤ a - b := by
      by_contra hcon
      have hba2 : a = b := by omega
      rw [hba2] at hlt; omega
    have hp2 : 2 ≤ 2 ^ (a - b) := by
      calc (2:Nat) = 2 ^ 1 := (pow_one 2).symm
      _ ≤ 2 ^ (a - b) := Nat.pow_le_pow_right (by omega) hab
    unfold reindex_by_subdomain
    have h1 : ¬ 2 ^ a < 2 ^ b := by omega
    have h2 : ¬ (2:Nat) ^ b = 0 := by positivity
    simp only [h1, if_false, h2]
    by_cases h3 : index < 2 ^ b
    · simp [h3]
    · have h4 : ¬ (2 ^ a / 2 ^ b - 1) = 0 := by rw [hdiv]; omega
      simp [h3, h4]
  · intro hge
    unfold reindex_by_subdomain
    have h1 : ¬ 2 ^ b < 2 ^ b := by omega
    have h2 : ¬ (2:Nat) ^ b = 0 := by positivity
    have h3 : ¬ index < 2 ^ b := by omega
    have h4 : 2 ^ b / 2 ^ b = 1 := Nat.div_self (by positivity)
    simp only [h1, if_false, h2, h3, if_true, if_false, h4]

/-- Witness for C8 at `self_size = 8`, `other_size = 2`, both branches hit via
`index = 1` and `index = 5`. -/
theorem claim_C8_witness :
    (2 ∣ 8 ∧ 0 < 2 ∧ 2 ≤ 8 ∧ 1 < 8 ∧ 5 < 8)
    ∧ (reindex_by_subdomain 8 2 1 = some 4
        ∧ ((Finset.range 4).filter (fun j => 4 ∣ j)).card = 1)
    ∧ reindex_by_subdomain 8 2 5 = some 5 := by
  refine ⟨by decide, ?_, ?_⟩
  · have h := (claim_C8 8 2 1 (by decide) (by decide) (by decide) (by decide)).1 (by decide)
    exact h
  · have h := ((claim_C8 8 2 5 (by decide) (by decide) (by decide) (by decide)).2 (by decide)).1
    exact h

/-- Witness for C10 at sizes 4 and 2 (totality) and 2 and 2 with index 3
(division-by-zero panic). -/
theorem claim_C10_witness :
    (2 ^ 1 < 2 ^ 2 ∧ (reindex_by_subdomain (2 ^ 2) (2 ^ 1) 3).isSome)
    ∧ (2 ^ 1 ≤ 3 ∧ reindex_by_subdomain (2 ^ 1) (2 ^ 1) 3 = none) :=
  ⟨⟨by decide, (claim_C10 2 1 3).1 (by decide)⟩,
   ⟨by decide, (claim_C10 2 1 3).2 (by decide)⟩⟩

/-- C6: `EvaluationDomain::new` fails exactly when the rounded-up size needs
more two-adicity than the field has (given the field contract that
root-of-unity lookup succeeds exactly up to `TWO_ADICITY` and the needed
inverses exist); on success the domain size is the next power of two, and
`compute_size_of_domain` succeeds exactly when `new` does, returning that
same size. -/
theorem claim_C6 {F : Type _} (M : FieldModel F)
    (hroot : ∀ k, (M.get_root_of_unity (2 ^ k)).isSome ↔ k ≤ M.two_adicity)
    (hinv_size : ∀ k, k ≤ M.two_adicity → (M.inverse (M.ofNat (2 ^ k))).isSome)
    (hinv_root : ∀ k g, M.get_root_of_unity (2 ^ k) = some g → (M.inverse g).isSome)
    (hinv_gen : (M.inverse M.multiplicative_generator).isSome)
    (num_coeffs : Nat) :
    (EvaluationDomain.new M num_coeffs = none ↔
      M.two_adicity < trailing_zeros (next_power_of_two num_coeffs))
    ∧ (∀ d, EvaluationDomain.new M num_coeffs = some d →
        d.size = next_power_of_two num_coeffs)
    ∧ ((compute_size_of_domain M num_coeffs).isSome
        ↔ (EvaluationDomain.new M num_coeffs).isSome)
    ∧ (∀ s d, compute_size_of_domain M num_coeffs = some s →
        EvaluationDomain.new M num_coeffs = some d → s = d.size) := by
  obtain ⟨k, hk⟩ := next_power_of_two_is_pow num_coeffs
  simp only [EvaluationDomain.new, compute_size_of_domain, hk, trailing_zeros_two_pow]
  by_cases hle : k ≤ M.two_adicity
  · have h1 : ¬ k > M.two_adicity := by omega
    obtain ⟨g, hg⟩ := Option.isSome_iff_exists.mp ((hroot k).mpr hle)
    obtain ⟨si, hsi⟩ := Option.isSome_iff_exists.mp (hinv_size k hle)
    obtain ⟨gi, hgi⟩ := Option.isSome_iff_exists.mp (hinv_root k g hg)
    obtain ⟨mi, hmi⟩ := Option.isSome_iff_exists.mp hinv_gen
    have h2 : ¬ M.two_adicity < k := by omega
    simp only [h1, if_false, hg, hsi, hgi, hmi, hle, if_true]
    refine ⟨by simp [h2], ?_, by simp, ?_⟩
    · intro d hd
      injection hd with hd
      rw [← hd]
    · intro s d hs hd
      injection hs with hs
      injection hd with hd
      rw [← hs, ← hd]
  · have h1 : k > M.two_adicity := by omega
    simp [h1, hle]

/-- A concrete instance of the modelled field contract (two-adicity 2),
used only to witness C6. -/
def fieldModelW : FieldModel Unit where
  two_adicity := 2
  get_root_of_unity := fun n => if n ≤ 2 ^ 2 then some () else none
  inverse := fun _ => some ()
  ofNat := fun _ => ()
  multiplicative_generator := ()

theorem fieldModelW_root :
    ∀ k, (fieldModelW.get_root_of_unity (2 ^ k)).isSome ↔ k ≤ fieldModelW.two_adicity := by
  intro k
  have hiff : (2:Nat) ^ k ≤ 2 ^ 2 ↔ k ≤ 2 := Nat.pow_le_pow_iff_right (by omega)
  show (if (2:Nat) ^ k ≤ 2 ^ 2 then some () else none).isSome ↔ k ≤ 2
  rw [← hiff]
  by_cases h : (2:Nat) ^ k ≤ 2 ^ 2 <;> simp [h]

/-- Witness for C6: over the concrete field model, `new 3` succeeds with size
4 = next power of two, and `new 9` (needing two-adicity 4 > 2) fails. -/
theorem claim_C6_witness :
    ((compute_size_of_domain fieldModelW 3).isSome
      ↔ (EvaluationDomain.new fieldModelW 3).isSome)
    ∧ (EvaluationDomain.new fieldModelW 9 = none ↔
        fieldModelW.two_adicity < trailing_zeros (next_power_of_two 9)) :=
  ⟨(claim_C6 fieldModelW fieldModelW_root (fun _ _ => rfl) (fun _ _ _ => rfl) rfl 3).2.2.1,
   (claim_C6 fieldModelW fieldModelW_root (fun _ _ => rfl) (fun _ _ _ => rfl) rfl 9).1⟩

/-! ## The Bowe-Hopwood Pedersen CRH (`bhp.rs`)

The curve group `G` is embedded as an additive commutative group; the
projective-to-affine x-coordinate extraction (external collaborator
snarkvm_curves) is an abstract function `toX`. -/

/-- `CRHError` (only the variant this file produces). -/
inductive CRHError : Type where
  | IncorrectInputLength : Nat → Nat → Nat → CRHError
deriving DecidableEq

/-- One entry of the 8-point lookup table built from a generator `g`
(`bhp.rs`, lines 129-142):  start at `g`, add `g` if bit 0 is set, add
`g.double()` if bit 1 is set, negate if bit 2 is set. -/
def lookup_entry {G : Type _} [AddCommGroup G] (g : G) (i : Nat) : G :=
  let e0 := g
  let e1 := if i &&& 1 ≠ 0 then e0 + g else e0
  let e2 := if i &&& 2 ≠ 0 then e1 + (g + g) else e1
  if i &&& 4 ≠ 0 then -e2 else e2

/-- The 8-point table `[G; BOWE_HOPWOOD_LOOKUP_SIZE]` for one generator. -/
def bowe_hopwood_table {G : Type _} [AddCommGroup G] (g : G) : List G :=
  (List.range 8).map (lookup_entry g)

/-- `base_lookup` (`bhp.rs`, lines 122-150), as the pure table it memoizes. -/
def base_lookup {G : Type _} [AddCommGroup G] (bases : List (List G)) :
    List (List (List G)) :=
  bases.map (fun x => x.map bowe_hopwood_table)

/-- `slice::chunks` with fuel (the wrapper below passes `l.length`, enough
fuel for any positive chunk size); each chunk has `k` elements except
possibly a shorter last one. -/
def chunksAux {α : Type _} (k : Nat) : Nat → List α → List (List α)
  | 0, _ => []
  | fuel + 1, l => if l.isEmpty then [] else l.take k :: chunksAux k fuel (l.drop k)

/-- `slice::chunks(k)` (the call sites pass `k > 0`, where chunking consumes
at least one element per step, so `l.length` fuel suffices). -/
def listChunks {α : Type _} (k : Nat) (l : List α) : List (List α) :=
  chunksAux k l.length l

/-- The double summation of `hash_bits_inner` (`bhp.rs`, lines 201-214) as a
function of the padded bit buffer: split into per-window segments of
`WINDOW_SIZE * 3` bits, zip with the lookup tables, decode each 3-bit chunk
as `b0 | b1<<1 | b2<<2`, look the chunk up, and fold all sums with `+`. -/
def bhp_sum {G : Type _} [AddCommGroup G] (WINDOW_SIZE : Nat)
    (lookup : List (List (List G))) (buf : List Bool) : G :=
  (((listChunks (WINDOW_SIZE * 3) buf).zip lookup).map (fun seg =>
      (((listChunks 3 seg.1).zip seg.2).map (fun cg =>
          cg.2.getD
            ((cg.1.getD 0 false).toNat ||| (cg.1.getD 1 false).toNat <<< 1
              ||| (cg.1.getD 2 false).toNat <<< 2) 0)).foldl (· + ·) 0)).foldl
    (· + ·) 0

/-- `bit_len`: `WINDOW_SIZE * NUM_WINDOWS` rounded up to a multiple of the
chunk size 3 (`bhp.rs`, lines 171-174). -/
def round_up_3 (n : Nat) : Nat := if n % 3 ≠ 0 then n + (3 - n % 3) else n

/-- `hash_bits_inner` (`bhp.rs`, lines 153-217): reject inputs longer than
`WINDOW_SIZE * NUM_WINDOWS` bits, copy the input into a zero-initialised
buffer of `WINDOW_SIZE * NUM_WINDOWS` bits rounded up to a multiple of 3
(the chunk size), and run the double summation over the buffer. -/
def hash_bits_inner {G : Type _} [AddCommGroup G]
    (WINDOW_SIZE NUM_WINDOWS : Nat) (bases : List (List G)) (input : List Bool) :
    Except CRHError G :=
  let num_bits := input.length
  if num_bits > WINDOW_SIZE * NUM_WINDOWS then
    .error (.IncorrectInputLength num_bits WINDOW_SIZE NUM_WINDOWS)
  else
    let bit_len := round_up_3 (WINDOW_SIZE * NUM_WINDOWS)
    let buf := input ++ List.replicate (bit_len - num_bits) false
    .ok (bhp_sum WINDOW_SIZE (base_lookup bases) buf)

/-- `hash_bits` (`bhp.rs`, lines 90-94): the x-coordinate (extraction
function `toX`, an external collaborator) of the inner group hash. -/
def hash_bits {G X : Type _} [AddCommGroup G]
    (WINDOW_SIZE NUM_WINDOWS : Nat) (toX : G → X) (bases : List (List G))
    (input : List Bool) : Except CRHError X :=
  (hash_bits_inner WINDOW_SIZE NUM_WINDOWS bases input).map toX

/-- C4: every 8-point table entry built from a generator `g` at 3-bit index
`v = b0 | b1<<1 | b2<<2` is the scalar multiple `(1 - 2*b2) * (1 + b0 + 2*b1)`
of `g` — the Bowe-Hopwood / Zcash sign-and-magnitude chunk encoding. -/
theorem claim_C4 {G : Type _} [AddCommGroup G] (g : G) (b0 b1 b2 : Bool) :
    (bowe_hopwood_table g).getD
        (b0.toNat ||| b1.toNat <<< 1 ||| b2.toNat <<< 2) 0
      = (((1 - 2 * (b2.toNat : ℤ)) * (1 + (b0.toNat : ℤ) + 2 * (b1.toNat : ℤ))) : ℤ) • g := by
  cases b0 <;> cases b1 <;> cases b2
  · show g = ((1:ℤ)) • g
    abel
  · show -g = ((-1:ℤ)) • g
    abel
  · show g + (g + g) = ((3:ℤ)) • g
    abel
  · show -(g + (g + g)) = ((-3:ℤ)) • g
    abel
  · show g + g = ((2:ℤ)) • g
    abel
  · show -(g + g) = ((-2:ℤ)) • g
    abel
  · show (g + g) + (g + g) = ((4:ℤ)) • g
    abel
  · show -((g + g) + (g + g)) = ((-4:ℤ)) • g
    abel

theorem hash_bits_of_le {G X : Type _} [AddCommGroup G] (W N : Nat) (toX : G → X)
    (bases : List (List G)) (input : List Bool) (h : input.length ≤ W * N) :
    hash_bits W N toX bases input
      = .ok (toX (bhp_sum W (base_lookup bases)
          (input ++ List.replicate (round_up_3 (W * N) - input.length) false))) := by
  unfold hash_bits hash_bits_inner
  rw [if_neg (by omega)]
  rfl

/-- C3 (amended): for a positive window size, `hash_bits` returns the
`IncorrectInputLength` error, carrying the offending bit count and the
configured `WINDOW_SIZE` and `NUM_WINDOWS`, if and only if the input has more
than `WINDOW_SIZE * NUM_WINDOWS` bits (not `* 3`); every shorter input
hashes to `Ok`. -/
theorem claim_C3 {G X : Type _} [AddCommGroup G] (W N : Nat) (toX : G → X)
    (bases : List (List G)) (input : List Bool) (_hW : 0 < W) :
    (input.length > W * N →
      hash_bits W N toX bases input
        = .error (.IncorrectInputLength input.length W N))
    ∧ (input.length ≤ W * N → ∃ y, hash_bits W N toX bases input = .ok y) := by
  constructor
  · intro h
    unfold hash_bits hash_bits_inner
    rw [if_pos h]
    rfl
  · intro h
    exact ⟨_, hash_bits_of_le W N toX bases input h⟩

/-- C3 as frozen is false on the code: with `WINDOW_SIZE = NUM_WINDOWS = 1`,
the 2-bit input `[true, true]` does not exceed
`WINDOW_SIZE * NUM_WINDOWS * 3 = 3`, yet `hash_bits` returns the
`IncorrectInputLength` error — the bound the code enforces is
`WINDOW_SIZE * NUM_WINDOWS = 1`. -/
theorem claim_C3_counterexample :
    ¬ ((2:Nat) > 1 * 1 * 3)
    ∧ hash_bits 1 1 (fun x => x) [[(1:ℤ)]] [true, true]
        = .error (.IncorrectInputLength 2 1 1) :=
  ⟨by decide, rfl⟩

/-- Witness for C3 at `WINDOW_SIZE = 2`, `NUM_WINDOWS = 2` over `G = ℤ`:
a 5-bit input errors, a 3-bit input hashes. -/
theorem claim_C3_witness :
    ((0:Nat) < 2)
    ∧ hash_bits 2 2 (fun x => x) [[(1:ℤ), 2], [3, 4]]
        [true, true, true, true, true] = .error (.IncorrectInputLength 5 2 2)
    ∧ ∃ y, hash_bits 2 2 (fun x => x) [[(1:ℤ), 2], [3, 4]] [true, true, true] = .ok y :=
  ⟨by decide,
   (claim_C3 2 2 (fun x => x) [[(1:ℤ), 2], [3, 4]] [true, true, true, true, true]
      (by decide)).1 (by decide),
   (claim_C3 2 2 (fun x => x) [[(1:ℤ), 2], [3, 4]] [true, true, true]
      (by decide)).2 (by decide)⟩

/-- C9: appending a trailing `false` bit to any strictly-short input does not
change the hash, because `hash_bits_inner` zero-pads the buffer to the fixed
rounded length before chunking — accepted inputs differing only in trailing
zero bits collide. -/
theorem claim_C9 {G X : Type _} [AddCommGroup G] (W N : Nat) (toX : G → X)
    (bases : List (List G)) (input : List Bool)
    (h : input.length < W * N) :
    hash_bits W N toX bases input = hash_bits W N toX bases (input ++ [false]) := by
  have hlen : (input ++ [false]).length = input.length + 1 := by
    simp
  have hbit : W * N ≤ round_up_3 (W * N) := by
    unfold round_up_3
    by_cases h3 : (W * N) % 3 ≠ 0 <;> simp [h3]
  rw [hash_bits_of_le W N toX bases input (by omega),
    hash_bits_of_le W N toX bases (input ++ [false]) (by omega)]
  have hbuf : input ++ List.replicate (round_up_3 (W * N) - input.length) false
      = (input ++ [false])
          ++ List.replicate (round_up_3 (W * N) - (input ++ [false]).length) false := by
    rw [hlen, List.append_assoc]
    have hsub : round_up_3 (W * N) - input.length
        = (round_up_3 (W * N) - (input.length + 1)) + 1 := by omega
    rw [hsub, List.replicate_succ]
    rfl
  rw [hbuf]

/-- Witness for C9 over `G = ℤ` with a 2-window, size-2 configuration and a
1-bit input. -/
theorem claim_C9_witness :
    ((1:Nat) < 2 * 2)
    ∧ hash_bits 2 2 (fun x => x) [[(1:ℤ), 2], [3, 4]] [true]
        = hash_bits 2 2 (fun x => x) [[(1:ℤ), 2], [3, 4]] ([true] ++ [false]) :=
  ⟨by decide, claim_C9 2 2 (fun x => x) [[(1:ℤ), 2], [3, 4]] [true] (by decide)⟩

/-! ## The serial radix-2 Cooley-Tukey kernel (`domain.rs`, lines 417-460)

Arrays are embedded as functions `Nat → F`; every loop is an instance of
`loopUpTo` or a fuel-style recursion whose fuel is the loop's iteration
count.  The coefficient type `T : DomainCoeff<F>` is specialised to `F`
itself (the use sites of the claims). -/

section FFTKernel

variable {F : Type _} [Field F]

/-- The inner `for j in 0..m` butterfly loop: `cnt` iterations remain, the
current loop counter is `j`, the running twiddle power is `w` (`domain.rs`,
lines 445-453).  Both writes of an iteration read the pre-iteration values. -/
def butterflies (w_m : F) (k m : Nat) : Nat → Nat → F → (Nat → F) → (Nat → F)
  | 0, _, _, a => a
  | cnt + 1, j, w, a =>
    let t := a (k + j + m) * w
    let a1 := upd a (k + j + m) (a (k + j) - t)
    let a2 := upd a1 (k + j) (a (k + j) + t)
    butterflies w_m k m cnt (j + 1) (w * w_m) a2

/-- The `while k < n` loop (`domain.rs`, lines 442-456): `c` blocks remain
and the current block starts at `k`; the step is `k += 2*m`.  The caller
passes `c = n / (2*m)` (exact, since `2*m` divides `n = 2^log_n`). -/
def kChunks (w_m : F) (m : Nat) : Nat → Nat → (Nat → F) → (Nat → F)
  | 0, _, a => a
  | c + 1, k, a => kChunks w_m m c (k + 2 * m) (butterflies w_m k m m 0 1 a)

/-- The outer pass loop (`domain.rs`, lines 438-459): `t` passes remain, the
running block half-width is `m` (starting at 1, doubled each pass), and each
pass uses the twiddle `w_m = omega ^ (n / (2*m))`. -/
def fftPasses (omega : F) (n : Nat) : Nat → Nat → (Nat → F) → (Nat → F)
  | 0, _, a => a
  | t + 1, m, a =>
    fftPasses omega n t (2 * m) (kChunks (omega ^ (n / (2 * m))) m (n / (2 * m)) 0 a)

/-- The body of the bit-reversal loop at index `k`: swap `a[k]` and `a[rk]`
exactly when `k < rk`. -/
def brpStep {α : Type _} (log_n : Nat) : Nat → (Nat → α) → (Nat → α) := fun k b =>
  let rk := bitreverse k log_n
  if k < rk then swapFn b rk k else b

/-- The bit-reversal pre-permutation (`domain.rs`, lines 431-436). -/
def bit_reverse_permutation {α : Type _} (log_n n : Nat) (a : Nat → α) : Nat → α :=
  loopUpTo (brpStep log_n) n a

/-- `serial_radix2_fft` (`domain.rs`, lines 417-460).  The asserted array
length `n = 1 << log_n` replaces `a.len()`. -/
def serial_radix2_fft (a : Nat → F) (omega : F) (log_n : Nat) : Nat → F :=
  fftPasses omega (2 ^ log_n) log_n 1 (bit_reverse_permutation log_n (2 ^ log_n) a)

theorem bit_reverse_permutation_inv {α : Type _} (l : Nat) (a : Nat → α) :
    ∀ c, c ≤ 2 ^ l → ∀ x,
      loopUpTo (brpStep l) c a x
      = if x < 2 ^ l ∧ (x < c ∨ bitreverse x l < c) then a (bitreverse x l) else a x := by
  intro c
  induction c with
  | zero =>
    intro _ x
    simp [loopUpTo]
  | succ c ih =>
    intro hc x
    have hc' : c ≤ 2 ^ l := by omega
    have hclt : c < 2 ^ l := by omega
    have hrc_lt : bitreverse c l < 2 ^ l := bitreverse_lt _ _
    have hinvc : bitreverse (bitreverse c l) l = c := bitreverse_involution l c hclt
    have hstep : loopUpTo (brpStep l) (c + 1) a x
        = brpStep l c (loopUpTo (brpStep l) c a) x := rfl
    rw [hstep]
    show (let rk := bitreverse c l
          if c < rk then swapFn (loopUpTo (brpStep l) c a) rk c
          else loopUpTo (brpStep l) c a) x = _
    by_cases hx : x < 2 ^ l
    · have hinvx : bitreverse (bitreverse x l) l = x := bitreverse_involution l x hx
      by_cases hswap : c < bitreverse c l
      · simp only [hswap, if_true]
        by_cases hxc : x = c
        · have h1 : swapFn (loopUpTo (brpStep l) c a) (bitreverse c l) c x
              = loopUpTo (brpStep l) c a (bitreverse c l) := by
            simp only [swapFn]
            rw [if_neg (by omega), if_pos hxc]
          rw [h1, ih hc']
          have hcond : ¬ (bitreverse c l < 2 ^ l
              ∧ (bitreverse c l < c ∨ bitreverse (bitreverse c l) l < c)) := by
            rintro ⟨h1c, h2c | h3c⟩
            · omega
            · rw [hinvc] at h3c
              omega
          rw [if_neg hcond, if_pos ⟨hx, by omega⟩, hxc]
        · by_cases hxrc : x = bitreverse c l
          · have h1 : swapFn (loopUpTo (brpStep l) c a) (bitreverse c l) c x
                = loopUpTo (brpStep l) c a c := by
              simp only [swapFn]
              rw [if_pos hxrc]
            rw [h1, ih hc']
            have hcond : ¬ (c < 2 ^ l ∧ (c < c ∨ bitreverse c l < c)) := by omega
            rw [if_neg hcond]
            have hrx : bitreverse x l = c := by rw [hxrc, hinvc]
            rw [if_pos ⟨hx, by omega⟩, hrx]
          · have h1 : swapFn (loopUpTo (brpStep l) c a) (bitreverse c l) c x
                = loopUpTo (brpStep l) c a x := by
              simp only [swapFn]
              rw [if_neg hxrc, if_neg hxc]
            rw [h1, ih hc']
            have hne : bitreverse x l ≠ c := by
              intro hcon
              rw [← hcon] at hxrc
              exact hxrc hinvx.symm
            by_cases hcond : x < c ∨ bitreverse x l < c
            · rw [if_pos ⟨hx, hcond⟩, if_pos ⟨hx, by omega⟩]
            · rw [if_neg (by tauto), if_neg (by
                rintro ⟨h1c, h2c | h3c⟩
                · exact hxc (by omega)
                · exact hne (by omega))]
      · simp only [hswap, if_false]
        rw [ih hc']
        by_cases hxc : x = c
        · have hrled : bitreverse x l ≤ x := by rw [hxc]; omega
          by_cases hrcx : bitreverse x l = x
          · by_cases h2 : x < c ∨ bitreverse x l < c
            · rw [if_pos ⟨hx, h2⟩, if_pos ⟨hx, by omega⟩]
            · rw [if_neg (by tauto), if_pos ⟨hx, by omega⟩, hrcx]
          · have hrclt : bitreverse x l < x := by omega
            rw [if_pos ⟨hx, by omega⟩, if_pos ⟨hx, by omega⟩]
        · by_cases hcond : x < c ∨ bitreverse x l < c
          · rw [if_pos ⟨hx, hcond⟩, if_pos ⟨hx, by omega⟩]
          · rw [if_neg (by tauto), if_neg (by
              rintro ⟨h1c, h2c | h3c⟩
              · exact hxc (by omega)
              · -- then `rev x = c`, so `x = rev c ≤ c` (no swap), contradiction
                have hrx : bitreverse x l = c := by omega
                have hx2 : x = bitreverse c l := by rw [← hrx, hinvx]
                omega)]
    · -- `x` is outside the array; neither a swap source nor target
      have h1 : x ≠ c := by omega
      have h2 : x ≠ bitreverse c l := by omega
      by_cases hswap : c < bitreverse c l
      · simp only [hswap, if_true]
        have h3 : swapFn (loopUpTo (brpStep l) c a) (bitreverse c l) c x
            = loopUpTo (brpStep l) c a x := by
          simp only [swapFn]
          rw [if_neg h2, if_neg h1]
        rw [h3, ih hc', if_neg (by tauto), if_neg (by tauto)]
      · simp only [hswap, if_false]
        rw [ih hc', if_neg (by tauto), if_neg (by tauto)]

/-- After the bit-reversal loop, position `x < n` holds the input value at the
bit-reversed position; positions outside the array are untouched. -/
theorem bit_reverse_permutation_spec {α : Type _} (l : Nat) (a : Nat → α) (x : Nat) :
    bit_reverse_permutation l (2 ^ l) a x
      = if x < 2 ^ l then a (bitreverse x l) else a x := by
  unfold bit_reverse_permutation
  rw [bit_reverse_permutation_inv l a (2 ^ l) (le_refl _) x]
  by_cases hx : x < 2 ^ l
  · rw [if_pos ⟨hx, Or.inl hx⟩, if_pos hx]
  · rw [if_neg (by tauto), if_neg hx]

theorem butterflies_untouched (w_m : F) (k m : Nat) :
    ∀ cnt j w (a : Nat → F) x,
      (∀ jj, j ≤ jj → jj < j + cnt → x ≠ k + jj ∧ x ≠ k + jj + m) →
      butterflies w_m k m cnt j w a x = a x := by
  intro cnt
  induction cnt with
  | zero =>
    intro j w a x _
    simp [butterflies]
  | succ c ih =>
    intro j w a x hx
    simp only [butterflies]
    rw [ih (j + 1) (w * w_m) _ x (fun jj h1 h2 => hx jj (by omega) (by omega))]
    have h1 := hx j (by omega) (by omega)
    rw [upd_other _ _ _ _ h1.1, upd_other _ _ _ _ h1.2]

theorem butterflies_spec (w_m : F) (k m : Nat) :
    ∀ cnt j w (a : Nat → F), j + cnt ≤ m →
      ∀ jj, j ≤ jj → jj < j + cnt →
        butterflies w_m k m cnt j w a (k + jj)
            = a (k + jj) + a (k + jj + m) * (w * w_m ^ (jj - j))
        ∧ butterflies w_m k m cnt j w a (k + jj + m)
            = a (k + jj) - a (k + jj + m) * (w * w_m ^ (jj - j)) := by
  intro cnt
  induction cnt with
  | zero =>
    intro j w a _ jj h1 h2
    omega
  | succ c ih =>
    intro j w a hle jj h1 h2
    have hm : 1 ≤ m := by omega
    simp only [butterflies]
    by_cases hjj : jj = j
    · subst hjj
      have huntouched : ∀ x, (x = k + jj ∨ x = k + jj + m) →
          butterflies w_m k m c (jj + 1) (w * w_m)
            (upd (upd a (k + jj + m) (a (k + jj) - a (k + jj + m) * w)) (k + jj)
              (a (k + jj) + a (k + jj + m) * w)) x
          = (upd (upd a (k + jj + m) (a (k + jj) - a (k + jj + m) * w)) (k + jj)
              (a (k + jj) + a (k + jj + m) * w)) x := by
        intro x hx
        apply butterflies_untouched
        intro jj2 hj1 hj2
        rcases hx with h | h
        · subst h
          constructor
          · intro hcon; omega
          · intro hcon; omega
        · subst h
          constructor
          · intro hcon; omega
          · intro hcon; omega
      constructor
      · rw [huntouched (k + jj) (Or.inl rfl), upd_same]
        rw [Nat.sub_self, pow_zero, mul_one]
      · rw [huntouched (k + jj + m) (Or.inr rfl),
          upd_other _ _ _ _ (by omega : k + jj + m ≠ k + jj), upd_same]
        rw [Nat.sub_self, pow_zero, mul_one]
    · have hj1' : j + 1 ≤ jj := by omega
      have hspec := ih (j + 1) (w * w_m)
        (upd (upd a (k + j + m) (a (k + j) - a (k + j + m) * w)) (k + j)
          (a (k + j) + a (k + j + m) * w))
        (by omega) jj hj1' (by omega)
      have hjjm : jj < m := by omega
      have ha2 : ∀ x, (x = k + jj ∨ x = k + jj + m) →
          (upd (upd a (k + j + m) (a (k + j) - a (k + j + m) * w)) (k + j)
            (a (k + j) + a (k + j + m) * w)) x = a x := by
        intro x hx
        rcases hx with h | h
        · subst h
          rw [upd_other _ _ _ _ (by omega : k + jj ≠ k + j),
            upd_other _ _ _ _ (by omega : k + jj ≠ k + j + m)]
        · subst h
          rw [upd_other _ _ _ _ (by omega : k + jj + m ≠ k + j),
            upd_other _ _ _ _ (by omega : k + jj + m ≠ k + j + m)]
      rw [ha2 (k + jj) (Or.inl rfl), ha2 (k + jj + m) (Or.inr rfl)] at hspec
      have hcoef : w * w_m * w_m ^ (jj - (j + 1)) = w * w_m ^ (jj - j) := by
        have he : jj - j = (jj - (j + 1)) + 1 := by omega
        rw [he, pow_succ]
        ring
      rw [hcoef] at hspec
      exact hspec

theorem kChunks_untouched (w_m : F) (m : Nat) :
    ∀ c k0 (a : Nat → F) x, (x < k0 ∨ k0 + 2 * m * c ≤ x) →
      kChunks w_m m c k0 a x = a x := by
  intro c
  induction c with
  | zero =>
    intro k0 a x _
    simp [kChunks]
  | succ c ih =>
    intro k0 a x hx
    have hmul : 2 * m * (c + 1) = 2 * m * c + 2 * m := by ring
    simp only [kChunks]
    rw [ih (k0 + 2 * m) _ x (by omega)]
    apply butterflies_untouched
    intro jj h1 h2
    constructor
    · intro hcon; omega
    · intro hcon; omega

theorem kChunks_spec (w_m : F) (m : Nat) :
    ∀ c k0 (a : Nat → F) b jj, 0 < m → b < c → jj < m →
      kChunks w_m m c k0 a (k0 + 2 * m * b + jj)
          = a (k0 + 2 * m * b + jj) + a (k0 + 2 * m * b + jj + m) * w_m ^ jj
      ∧ kChunks w_m m c k0 a (k0 + 2 * m * b + jj + m)
          = a (k0 + 2 * m * b + jj) - a (k0 + 2 * m * b + jj + m) * w_m ^ jj := by
  intro c
  induction c with
  | zero =>
    intro k0 a b jj _ hb _
    omega
  | succ c ih =>
    intro k0 a b jj hm hb hjj
    simp only [kChunks]
    rcases Nat.eq_zero_or_pos b with hb0 | hbpos
    · subst hb0
      have hz : k0 + 2 * m * 0 + jj = k0 + jj := by ring_nf
      rw [hz]
      have hb1 := butterflies_spec w_m k0 m m 0 1 a (by omega) jj (by omega) (by omega)
      rw [Nat.sub_zero, one_mul] at hb1
      have hu : ∀ x, x < k0 + 2 * m →
          kChunks w_m m c (k0 + 2 * m) (butterflies w_m k0 m m 0 1 a) x
            = butterflies w_m k0 m m 0 1 a x := by
        intro x hx
        exact kChunks_untouched w_m m c (k0 + 2 * m) _ x (Or.inl hx)
      rw [hu (k0 + jj) (by omega), hu (k0 + jj + m) (by omega)]
      exact hb1
    · have h2mb : 2 * m * b = 2 * m + 2 * m * (b - 1) := by
        have hb1 : b = (b - 1) + 1 := by omega
        calc 2 * m * b = 2 * m * ((b - 1) + 1) := by rw [← hb1]
        _ = 2 * m + 2 * m * (b - 1) := by ring
      have harith : k0 + 2 * m * b + jj = (k0 + 2 * m) + 2 * m * (b - 1) + jj := by omega
      rw [harith]
      have hspec := ih (k0 + 2 * m) (butterflies w_m k0 m m 0 1 a) (b - 1) jj hm
        (by omega) hjj
      have hbu : ∀ x, k0 + 2 * m ≤ x → butterflies w_m k0 m m 0 1 a x = a x := by
        intro x hx
        apply butterflies_untouched
        intro jj2 hj1 hj2
        constructor
        · intro hcon; omega
        · intro hcon; omega
      rw [hbu ((k0 + 2 * m) + 2 * m * (b - 1) + jj) (by omega),
        hbu ((k0 + 2 * m) + 2 * m * (b - 1) + jj + m) (by omega)] at hspec
      exact hspec

theorem sum_range_even_odd (m : Nat) (f : Nat → F) :
    ∑ u ∈ Finset.range (2 * m), f u
      = ∑ u ∈ Finset.range m, f (2 * u) + ∑ u ∈ Finset.range m, f (2 * u + 1) := by
  induction m with
  | zero => simp
  | succ m ih =>
    have h2 : 2 * (m + 1) = (2 * m + 1) + 1 := by ring
    rw [h2, Finset.sum_range_succ, Finset.sum_range_succ, Finset.sum_range_succ,
      Finset.sum_range_succ, ih]
    abel

theorem pow_mul_pow_eq (x : F) {p a q b : Nat} (h : p * a = q * b) :
    (x ^ p) ^ a = (x ^ q) ^ b := by
  rw [← pow_mul, h, pow_mul]

/-- In a field, a 2-power root of unity whose square-root power is not 1 has
that power equal to -1. -/
theorem primitive_neg_one {L : Nat} {omega : F} (hL : 1 ≤ L)
    (h1 : omega ^ 2 ^ L = 1) (h2 : omega ^ 2 ^ (L - 1) ≠ 1) :
    omega ^ 2 ^ (L - 1) = -1 := by
  have hsq : omega ^ 2 ^ (L - 1) * omega ^ 2 ^ (L - 1) = 1 := by
    rw [← pow_add]
    have he : 2 ^ (L - 1) + 2 ^ (L - 1) = 2 ^ L := by
      have hc : (2:Nat) ^ (L - 1) + 2 ^ (L - 1) = 2 ^ ((L - 1) + 1) := by ring
      rw [hc]
      congr 1
      omega
    rw [he, h1]
  have hfactor : (omega ^ 2 ^ (L - 1) - 1) * (omega ^ 2 ^ (L - 1) + 1) = 0 := by
    calc (omega ^ 2 ^ (L - 1) - 1) * (omega ^ 2 ^ (L - 1) + 1)
        = omega ^ 2 ^ (L - 1) * omega ^ 2 ^ (L - 1) - 1 := by ring
    _ = 0 := by rw [hsq]; ring
  rcases mul_eq_zero.mp hfactor with h | h
  · exact absurd (sub_eq_zero.mp h) h2
  · exact eq_neg_of_add_eq_zero_left h

theorem pass_step (L s : Nat) (hs : s < L) (omega : F) (a0 a : Nat → F)
    (h1 : omega ^ 2 ^ L = 1)
    (hneg : omega ^ 2 ^ (L - 1) = -1)
    (hinv : ∀ b r, b < 2 ^ (L - s) → r < 2 ^ s →
      a (b * 2 ^ s + r) = ∑ u ∈ Finset.range (2 ^ s),
        a0 (u * 2 ^ (L - s) + bitreverse b (L - s)) * (omega ^ 2 ^ (L - s)) ^ (r * u)) :
    ∀ b r, b < 2 ^ (L - (s + 1)) → r < 2 ^ (s + 1) →
      kChunks (omega ^ (2 ^ L / (2 * 2 ^ s))) (2 ^ s) (2 ^ L / (2 * 2 ^ s)) 0 a
          (b * 2 ^ (s + 1) + r)
        = ∑ u ∈ Finset.range (2 ^ (s + 1)),
            a0 (u * 2 ^ (L - (s + 1)) + bitreverse b (L - (s + 1)))
              * (omega ^ 2 ^ (L - (s + 1))) ^ (r * u) := by
  intro b r hb hr
  have hm : (0:Nat) < 2 ^ s := Nat.pos_pow_of_pos s (by omega)
  have htw : 2 ^ L / (2 * 2 ^ s) = 2 ^ (L - (s + 1)) := by
    have h2 : 2 * 2 ^ s = 2 ^ (s + 1) := by ring
    rw [h2, Nat.pow_div hs (by omega)]
  have hLs : L - s = (L - (s + 1)) + 1 := by omega
  have h2P : 2 ^ (L - s) = 2 * 2 ^ (L - (s + 1)) := by rw [hLs]; ring
  have h2m : 2 ^ (s + 1) = 2 * 2 ^ s := by ring
  have hPm : 2 ^ (L - (s + 1)) * 2 ^ s = 2 ^ (L - 1) := by
    rw [← pow_add]
    congr 1
    omega
  have h2Pm : 2 * 2 ^ (L - (s + 1)) * 2 ^ s = 2 ^ L := by
    have hc : 2 * 2 ^ (L - (s + 1)) * 2 ^ s = 2 ^ ((L - (s + 1)) + s + 1) := by ring
    rw [hc]
    congr 1
    omega
  have hrev_even : bitreverse (2 * b) (L - s) = bitreverse b (L - (s + 1)) := by
    rw [hLs, bitreverse_even]
  have hrev_odd : bitreverse (2 * b + 1) (L - s)
      = 2 ^ (L - (s + 1)) + bitreverse b (L - (s + 1)) := by
    rw [hLs, bitreverse_odd]
  rw [htw]
  by_cases hrm : r < 2 ^ s
  · -- lower half of the block: a[k+j] + w^j * t
    have hposition : b * 2 ^ (s + 1) + r = 0 + 2 * 2 ^ s * b + r := by rw [h2m]; ring
    rw [hposition]
    have hk := (kChunks_spec (omega ^ 2 ^ (L - (s + 1))) (2 ^ s) (2 ^ (L - (s + 1))) 0 a b r
      hm hb hrm).1
    rw [hk]
    have he1 : 0 + 2 * 2 ^ s * b + r = (2 * b) * 2 ^ s + r := by ring
    rw [he1]
    have he2 : (2 * b) * 2 ^ s + r + 2 ^ s = (2 * b + 1) * 2 ^ s + r := by ring
    rw [he2]
    rw [hinv (2 * b) r (by rw [h2P]; omega) hrm, hinv (2 * b + 1) r (by rw [h2P]; omega) hrm]
    rw [h2m, sum_range_even_odd]
    congr 1
    · -- even indices give the first sub-sum
      apply Finset.sum_congr rfl
      intro u _
      rw [hrev_even]
      have hidx : 2 * u * 2 ^ (L - (s + 1)) + bitreverse b (L - (s + 1))
          = u * 2 ^ (L - s) + bitreverse b (L - (s + 1)) := by rw [h2P]; ring
      rw [hidx]
      congr 1
      apply pow_mul_pow_eq
      rw [h2P]
      ring
    · -- odd indices give the twiddled second sub-sum
      rw [Finset.sum_mul]
      apply Finset.sum_congr rfl
      intro u _
      rw [hrev_odd]
      have hidx : (2 * u + 1) * 2 ^ (L - (s + 1)) + bitreverse b (L - (s + 1))
          = u * 2 ^ (L - s) + (2 ^ (L - (s + 1)) + bitreverse b (L - (s + 1))) := by
        rw [h2P]; ring
      rw [hidx, mul_assoc]
      congr 1
      rw [← pow_mul omega (2 ^ (L - s)) (r * u),
        ← pow_mul omega (2 ^ (L - (s + 1))) r,
        ← pow_add, ← pow_mul omega (2 ^ (L - (s + 1))) (r * (2 * u + 1))]
      congr 1
      rw [h2P]
      ring
  · -- upper half of the block: a[k+j] - w^j * t, with j = r - 2^s
    obtain ⟨j, rfl⟩ : ∃ j, r = j + 2 ^ s := ⟨r - 2 ^ s, by omega⟩
    have hj : j < 2 ^ s := by
      rw [h2m] at hr
      omega
    have hposition : b * 2 ^ (s + 1) + (j + 2 ^ s) = 0 + 2 * 2 ^ s * b + j + 2 ^ s := by
      rw [h2m]; ring
    rw [hposition]
    have hk := (kChunks_spec (omega ^ 2 ^ (L - (s + 1))) (2 ^ s) (2 ^ (L - (s + 1))) 0 a b j
      hm hb hj).2
    rw [hk]
    have he1 : 0 + 2 * 2 ^ s * b + j = (2 * b) * 2 ^ s + j := by ring
    rw [he1]
    have he2 : (2 * b) * 2 ^ s + j + 2 ^ s = (2 * b + 1) * 2 ^ s + j := by ring
    rw [he2]
    rw [hinv (2 * b) j (by rw [h2P]; omega) hj, hinv (2 * b + 1) j (by rw [h2P]; omega) hj]
    rw [h2m, sum_range_even_odd, sub_eq_add_neg]
    congr 1
    · -- even indices: the `omega^(2^L)` factor collapses to 1
      apply Finset.sum_congr rfl
      intro u _
      rw [hrev_even]
      have hidx : 2 * u * 2 ^ (L - (s + 1)) + bitreverse b (L - (s + 1))
          = u * 2 ^ (L - s) + bitreverse b (L - (s + 1)) := by rw [h2P]; ring
      rw [hidx]
      congr 1
      have hsplit : 2 ^ (L - (s + 1)) * ((j + 2 ^ s) * (2 * u))
          = 2 ^ L * u + 2 ^ (L - s) * (j * u) := by
        rw [h2P, ← h2Pm]
        ring
      rw [← pow_mul omega (2 ^ (L - (s + 1))) ((j + 2 ^ s) * (2 * u)), hsplit, pow_add,
        pow_mul omega (2 ^ L) u, h1, one_pow, one_mul, pow_mul omega (2 ^ (L - s)) (j * u)]
    · -- odd indices: the factor `omega^(2^(L-1)) = -1` produces the subtraction
      rw [Finset.sum_mul, ← Finset.sum_neg_distrib]
      apply Finset.sum_congr rfl
      intro u _
      rw [hrev_odd]
      have hidx : (2 * u + 1) * 2 ^ (L - (s + 1)) + bitreverse b (L - (s + 1))
          = u * 2 ^ (L - s) + (2 ^ (L - (s + 1)) + bitreverse b (L - (s + 1))) := by
        rw [h2P]; ring
      have hsplit : 2 ^ (L - (s + 1)) * ((j + 2 ^ s) * (2 * u + 1))
          = (2 ^ L * u + 2 ^ (L - s) * (j * u)) + (2 ^ (L - 1) + 2 ^ (L - (s + 1)) * j) := by
        rw [h2P, ← h2Pm, ← hPm]
        ring
      rw [hidx, ← pow_mul omega (2 ^ (L - (s + 1))) ((j + 2 ^ s) * (2 * u + 1)), hsplit,
        pow_add, pow_add, pow_add, pow_mul omega (2 ^ L) u, h1, one_pow, one_mul, hneg,
        pow_mul omega (2 ^ (L - s)) (j * u), pow_mul omega (2 ^ (L - (s + 1))) j]
      ring

theorem fftPasses_inv (L : Nat) (omega : F) (a0 : Nat → F)
    (h1 : omega ^ 2 ^ L = 1) (hneg : 1 ≤ L → omega ^ 2 ^ (L - 1) = -1) :
    ∀ t s (a : Nat → F), s + t ≤ L →
      (∀ b r, b < 2 ^ (L - s) → r < 2 ^ s →
        a (b * 2 ^ s + r) = ∑ u ∈ Finset.range (2 ^ s),
          a0 (u * 2 ^ (L - s) + bitreverse b (L - s)) * (omega ^ 2 ^ (L - s)) ^ (r * u)) →
      ∀ b r, b < 2 ^ (L - (s + t)) → r < 2 ^ (s + t) →
        fftPasses omega (2 ^ L) t (2 ^ s) a (b * 2 ^ (s + t) + r)
          = ∑ u ∈ Finset.range (2 ^ (s + t)),
              a0 (u * 2 ^ (L - (s + t)) + bitreverse b (L - (s + t)))
                * (omega ^ 2 ^ (L - (s + t))) ^ (r * u) := by
  intro t
  induction t with
  | zero =>
    intro s a _ hinv b r hb hr
    exact hinv b r hb hr
  | succ t ih =>
    intro s a hle hinv b r hb hr
    have hs : s < L := by omega
    have hstep := pass_step L s hs omega a0 a h1 (hneg (by omega)) hinv
    show fftPasses omega (2 ^ L) t (2 * 2 ^ s)
        (kChunks (omega ^ (2 ^ L / (2 * 2 ^ s))) (2 ^ s) (2 ^ L / (2 * 2 ^ s)) 0 a)
        (b * 2 ^ (s + (t + 1)) + r) = _
    set A := kChunks (omega ^ (2 ^ L / (2 * 2 ^ s))) (2 ^ s) (2 ^ L / (2 * 2 ^ s)) 0 a
      with hA
    have h2m : 2 * 2 ^ s = 2 ^ (s + 1) := by ring
    rw [h2m]
    have hst : (s + 1) + t = s + (t + 1) := by omega
    have hres := ih (s + 1) A (by omega) hstep b r
      (by rw [hst]; exact hb) (by rw [hst]; exact hr)
    rw [hst] at hres
    exact hres

/-- The core DFT fact: `serial_radix2_fft` leaves, at every position
`i < 2^log_n`, the value `sum_j a[j] * omega^(i*j)`, given that `omega` is a
primitive `2^log_n`-th root of unity (stated as: `omega^(2^log_n) = 1` and,
when `log_n ≥ 1`, the half power is `-1`). -/
theorem serial_radix2_fft_dft (L : Nat) (omega : F) (a : Nat → F)
    (h1 : omega ^ 2 ^ L = 1) (hneg : 1 ≤ L → omega ^ 2 ^ (L - 1) = -1) :
    ∀ i, i < 2 ^ L → serial_radix2_fft a omega L i
      = ∑ j ∈ Finset.range (2 ^ L), a j * omega ^ (i * j) := by
  intro i hi
  have hperm : ∀ b r, b < 2 ^ (L - 0) → r < 2 ^ 0 →
      bit_reverse_permutation L (2 ^ L) a (b * 2 ^ 0 + r)
        = ∑ u ∈ Finset.range (2 ^ 0),
            a (u * 2 ^ (L - 0) + bitreverse b (L - 0)) * (omega ^ 2 ^ (L - 0)) ^ (r * u) := by
    intro b r hb hr
    interval_cases r
    have hpos : b * 2 ^ 0 + 0 = b := by ring
    have h20 : (2:Nat) ^ 0 = 1 := rfl
    have hbL : b < 2 ^ L := by simpa using hb
    rw [hpos, h20, Finset.sum_range_one, bit_reverse_permutation_spec, if_pos hbL]
    simp
  have hzl : 0 + L = L := by omega
  have hmain := fftPasses_inv L omega a h1 hneg L 0 (bit_reverse_permutation L (2 ^ L) a)
    (by omega) hperm 0 i (by rw [hzl, Nat.sub_self]; omega) (by rw [hzl]; exact hi)
  rw [hzl, Nat.sub_self] at hmain
  have hrev0 : bitreverse 0 0 = 0 := rfl
  rw [hrev0] at hmain
  have hpos0 : 0 * 2 ^ L + i = i := by ring
  rw [hpos0] at hmain
  show fftPasses omega (2 ^ L) L 1 (bit_reverse_permutation L (2 ^ L) a) i = _
  have h20 : (2:Nat) ^ 0 = 1 := rfl
  rw [h20] at hmain
  rw [hmain]
  apply Finset.sum_congr rfl
  intro u _
  have hu1 : u * 1 + 0 = u := by ring
  rw [hu1, pow_one]

/-- From `omega^(2^L) = 1` and the half power not being 1 (primitivity for
2-power orders), `omega^e = 1` exactly when `2^L` divides `e`. -/
theorem order_two_pow {L : Nat} {omega : F}
    (h1 : omega ^ 2 ^ L = 1) (hprim : 1 ≤ L → omega ^ 2 ^ (L - 1) ≠ 1) :
    ∀ e, omega ^ e = 1 ↔ 2 ^ L ∣ e := by
  have hLpos : (0:Nat) < 2 ^ L := Nat.pos_pow_of_pos L (by omega)
  have hunit : IsUnit omega := by
    apply isUnit_of_mul_eq_one omega (omega ^ (2 ^ L - 1))
    calc omega * omega ^ (2 ^ L - 1) = omega ^ (1 + (2 ^ L - 1)) := by rw [pow_add, pow_one]
    _ = omega ^ 2 ^ L := by congr 1; omega
    _ = 1 := h1
  obtain ⟨u, hu⟩ := hunit
  have hu1 : u ^ 2 ^ L = 1 := by
    apply Units.ext
    rw [Units.val_pow_eq_pow_val, hu, h1, Units.val_one]
  have hord : orderOf u = 2 ^ L := by
    rcases Nat.eq_zero_or_pos L with h0 | hL
    · subst h0
      have hu' : u = 1 := by rw [← pow_one u]; exact hu1
      rw [hu', orderOf_one]
      rfl
    · haveI : Fact (Nat.Prime 2) := ⟨Nat.prime_two⟩
      have hL1 : L = (L - 1) + 1 := by omega
      have hnot : ¬ u ^ 2 ^ (L - 1) = 1 := by
        intro hcon
        apply hprim hL
        have hval := congrArg Units.val hcon
        rw [Units.val_pow_eq_pow_val, hu, Units.val_one] at hval
        exact hval
      have := orderOf_eq_prime_pow (x := u) (p := 2) (n := L - 1) hnot
        (by rw [← hL1]; exact hu1)
      rw [this, ← hL1]
  intro e
  constructor
  · intro he
    have hue : u ^ e = 1 := by
      apply Units.ext
      rw [Units.val_pow_eq_pow_val, hu, he, Units.val_one]
    rw [← hord]
    exact orderOf_dvd_of_pow_eq_one hue
  · rintro ⟨t, rfl⟩
    rw [pow_mul, h1, one_pow]

/-- Root-of-unity orthogonality: the geometric sum of `(omega^e)^i` over the
domain is the domain size if `2^L` divides `e` and zero otherwise. -/
theorem root_sum {L : Nat} {omega : F} (horder : ∀ e, omega ^ e = 1 ↔ 2 ^ L ∣ e) (e : Nat) :
    ∑ i ∈ Finset.range (2 ^ L), (omega ^ e) ^ i
      = if 2 ^ L ∣ e then ((2 ^ L : Nat) : F) else 0 := by
  by_cases hdvd : 2 ^ L ∣ e
  · rw [if_pos hdvd, (horder e).mpr hdvd]
    simp
  · rw [if_neg hdvd]
    have hne : omega ^ e ≠ 1 := fun hcon => hdvd ((horder e).mp hcon)
    rw [geom_sum_eq hne]
    have hnum : (omega ^ e) ^ 2 ^ L = 1 := by
      rw [← pow_mul, Nat.mul_comm, pow_mul, (horder (2 ^ L)).mpr dvd_rfl, one_pow]
    rw [hnum, sub_self, zero_div]

/-- `2^L` divides `j + (2^L - 1) * k` exactly when `j = k`, for `j, k` below
`2^L` (the exponent shape of the IFFT-after-FFT inner sum). -/
theorem dvd_inv_shift {n j k : Nat} (hn : 0 < n) (hj : j < n) (hk : k < n) :
    n ∣ (j + (n - 1) * k) ↔ j = k := by
  have hnk : (n - 1) * k + k = n * k := by
    have h1 : n = (n - 1) + 1 := by omega
    calc (n - 1) * k + k = ((n - 1) + 1) * k := by ring
    _ = n * k := by rw [← h1]
  constructor
  · rintro ⟨t, ht⟩
    have hkey : j + n * k = n * t + k := by omega
    rcases Nat.lt_trichotomy t k with hlt | heq | hgt
    · exfalso
      have hmul : n * k = n * t + n * (k - t) := by
        have h2 : k = t + (k - t) := by omega
        calc n * k = n * (t + (k - t)) := by rw [← h2]
        _ = n * t + n * (k - t) := by ring
      have hge : n * 1 ≤ n * (k - t) := Nat.mul_le_mul_left n (by omega)
      have hn1 : n * 1 = n := by ring
      omega
    · subst heq
      omega
    · exfalso
      have hmul : n * t = n * k + n * (t - k) := by
        have h2 : t = k + (t - k) := by omega
        calc n * t = n * (k + (t - k)) := by rw [← h2]
        _ = n * k + n * (t - k) := by ring
      have hge : n * 1 ≤ n * (t - k) := Nat.mul_le_mul_left n (by omega)
      have hn1 : n * 1 = n := by ring
      omega
  · intro heq
    subst heq
    refine ⟨j, ?_⟩
    calc j + (n - 1) * j = (n - 1) * j + j := by ring
    _ = n * j := hnk

/-- C2: `serial_radix2_fft` first applies the bit-reversal permutation
(position `i` receives the value at the index with reversed low `log_n` bits,
each out-of-place pair swapped exactly once), and after the `log_n` butterfly
passes the array holds the DFT in natural order:
`a[i] = sum_j original_a[j] * omega^(i*j)`. -/
theorem claim_C2 (log_n : Nat) (omega : F) (a : Nat → F)
    (h1 : omega ^ 2 ^ log_n = 1)
    (hprim : 1 ≤ log_n → omega ^ 2 ^ (log_n - 1) ≠ 1) :
    (∀ i, i < 2 ^ log_n →
      bit_reverse_permutation log_n (2 ^ log_n) a i = a (bitreverse i log_n))
    ∧ (∀ i, i < 2 ^ log_n →
      serial_radix2_fft a omega log_n i
        = ∑ j ∈ Finset.range (2 ^ log_n), a j * omega ^ (i * j)) := by
  constructor
  · intro i hi
    rw [bit_reverse_permutation_spec, if_pos hi]
  · intro i hi
    exact serial_radix2_fft_dft log_n omega a h1
      (fun hL => primitive_neg_one hL h1 (hprim hL)) i hi

end FFTKernel

instance fact_prime_five : Fact (Nat.Prime 5) := ⟨by norm_num⟩

/-- The concrete input for the C2 witness: `[1, 2, 3, 4]` over `ZMod 5`
(where 2 is a primitive 4th root of unity). -/
def aC2 : Nat → ZMod 5 := fun i => (i : ZMod 5) + 1

/-- Witness for C2 over `ZMod 5` with `log_n = 2`, `omega = 2`. -/
theorem claim_C2_witness :
    ((2 : ZMod 5) ^ 2 ^ 2 = 1) ∧ ((2 : ZMod 5) ^ 2 ^ (2 - 1) ≠ 1)
    ∧ serial_radix2_fft aC2 (2 : ZMod 5) 2 1
        = ∑ j ∈ Finset.range (2 ^ 2), aC2 j * (2 : ZMod 5) ^ (1 * j) :=
  ⟨by decide, by decide,
    (claim_C2 2 (2 : ZMod 5) aC2 (by decide) (fun _ => by decide)).2 1 (by decide)⟩

/-! ## `fft` / `ifft` on vectors (`domain.rs`, lines 136-162)

`Vec<T>` is embedded as `List F`, and `Vec::resize(size, zero)` as `resize`. -/

/-- `Vec::resize(n, x)`: truncate or right-pad with `x` to length exactly `n`. -/
def resize {α : Type _} (v : List α) (n : Nat) (x : α) : List α :=
  v.take n ++ List.replicate (n - v.length) x

/-- `best_fft` in the non-parallel configuration (`domain.rs`, lines 394-398):
the serial radix-2 kernel, read back as a list over the original indices. -/
def best_fft {F : Type _} [Field F] (a : List F) (omega : F) (log_n : Nat) : List F :=
  (List.range a.length).map (fun i => serial_radix2_fft (fun t => a.getD t 0) omega log_n i)

/-- `EvaluationDomain::fft_in_place` (`domain.rs`, lines 144-147). -/
def EvaluationDomain.fft_in_place {F : Type _} [Field F] (d : EvaluationDomain F)
    (coeffs : List F) : List F :=
  best_fft (resize coeffs d.size 0) d.group_gen d.log_size_of_group

/-- `EvaluationDomain::fft` (`domain.rs`, lines 137-141): copies, then in-place. -/
def EvaluationDomain.fft {F : Type _} [Field F] (d : EvaluationDomain F)
    (coeffs : List F) : List F :=
  d.fft_in_place coeffs

/-- `EvaluationDomain::ifft_in_place` (`domain.rs`, lines 157-162): resize,
kernel with `group_gen_inv`, then scale every element by `size_inv`. -/
def EvaluationDomain.ifft_in_place {F : Type _} [Field F] (d : EvaluationDomain F)
    (evals : List F) : List F :=
  (best_fft (resize evals d.size 0) d.group_gen_inv d.log_size_of_group).map
    (fun val => val * d.size_inv)

/-- `EvaluationDomain::ifft` (`domain.rs`, lines 150-154). -/
def EvaluationDomain.ifft {F : Type _} [Field F] (d : EvaluationDomain F)
    (evals : List F) : List F :=
  d.ifft_in_place evals

theorem resize_length {α : Type _} (v : List α) (n : Nat) (x : α) (h : v.length ≤ n) :
    (resize v n x).length = n := by
  simp [resize]
  omega

theorem resize_getD {α : Type _} (v : List α) (n t : Nat) (x : α) (h : v.length ≤ n) :
    (resize v n x).getD t x = v.getD t x := by
  unfold resize
  rw [List.take_of_length_le h]
  by_cases ht : t < v.length
  · rw [List.getD_append _ _ _ _ ht]
  · have h1 : v.length ≤ t := by omega
    rw [List.getD_append_right _ _ _ _ h1]
    have h2 : v.getD t x = x := List.getD_eq_default _ _ h1
    rw [h2]
    by_cases h3 : t - v.length < n - v.length
    · have h4 : t - v.length < (List.replicate (n - v.length) x).length := by
        rw [List.length_replicate]; exact h3
      rw [List.getD_eq_getElem _ _ h4]
      simp
    · have h4 : (List.replicate (n - v.length) x).length ≤ t - v.length := by
        rw [List.length_replicate]; omega
      rw [List.getD_eq_default _ _ h4]

theorem map_range_getD {β : Type _} (n i : Nat) (f : Nat → β) (d : β) (h : i < n) :
    ((List.range n).map f).getD i d = f i := by
  rw [List.getD_eq_getElem _ _ (by simpa using h)]
  simp

theorem resize_of_length_eq {α : Type _} (w : List α) (n : Nat) (x : α) (h : w.length = n) :
    resize w n x = w := by
  unfold resize
  rw [List.take_of_length_le (le_of_eq h), h, Nat.sub_self]
  simp

theorem best_fft_length {F : Type _} [Field F] (a : List F) (omega : F) (log_n : Nat) :
    (best_fft a omega log_n).length = a.length := by
  unfold best_fft
  rw [List.length_map, List.length_range]

theorem best_fft_map_getD {F : Type _} [Field F] (a : List F) (omega : F) (log_n : Nat)
    (s : F) (k : Nat) (hk : k < a.length) :
    ((best_fft a omega log_n).map (fun val => val * s)).getD k 0
      = serial_radix2_fft (fun t => a.getD t 0) omega log_n k * s := by
  unfold best_fft
  rw [List.map_map]
  exact map_range_getD _ _ _ _ hk

/-- C1: for every domain (satisfying the domain invariants of §3) and every
coefficient vector `v` with `v.len() ≤ size`, `ifft (fft v)` is `v`
zero-padded on the right to length `size`.  The resize/kernel/scale structure
of `fft_in_place` and `ifft_in_place` is definitional in the embedding. -/
theorem claim_C1 {F : Type _} [Field F] (d : EvaluationDomain F)
    (hsize : d.size = 2 ^ d.log_size_of_group)
    (hgen1 : d.group_gen ^ d.size = 1)
    (hprim : 1 ≤ d.log_size_of_group → d.group_gen ^ 2 ^ (d.log_size_of_group - 1) ≠ 1)
    (hginv : d.group_gen * d.group_gen_inv = 1)
    (hsinv : (d.size : F) * d.size_inv = 1)
    (v : List F) (hv : v.length ≤ d.size) :
    d.ifft (d.fft v) = v ++ List.replicate (d.size - v.length) 0 := by
  obtain ⟨n, L, sfe, sinv, ω, ωi, gi⟩ := d
  simp only [EvaluationDomain.ifft, EvaluationDomain.ifft_in_place, EvaluationDomain.fft,
    EvaluationDomain.fft_in_place] at *
  subst hsize
  have h1 : ω ^ 2 ^ L = 1 := hgen1
  have horder := order_two_pow h1 hprim
  have hneg : 1 ≤ L → ω ^ 2 ^ (L - 1) = -1 := fun hL1 => primitive_neg_one hL1 h1 (hprim hL1)
  have hnpos : (0:Nat) < 2 ^ L := Nat.pos_pow_of_pos L (by omega)
  have hωi_eq : ωi = ω ^ (2 ^ L - 1) := by
    have h2 : ω * ω ^ (2 ^ L - 1) = 1 := by
      calc ω * ω ^ (2 ^ L - 1) = ω ^ (1 + (2 ^ L - 1)) := by rw [pow_add, pow_one]
      _ = ω ^ 2 ^ L := by congr 1; omega
      _ = 1 := h1
    have ha : ωi = ω⁻¹ := eq_inv_of_mul_eq_one_right hginv
    have hb : ω ^ (2 ^ L - 1) = ω⁻¹ := eq_inv_of_mul_eq_one_right h2
    rw [ha, ← hb]
  have hi1 : ωi ^ 2 ^ L = 1 := by
    rw [hωi_eq, ← pow_mul]
    exact (horder _).mpr ⟨2 ^ L - 1, by ring⟩
  have hnegi : 1 ≤ L → ωi ^ 2 ^ (L - 1) = -1 := by
    intro hL1
    have hx : ωi ^ 2 ^ (L - 1) * ω ^ 2 ^ (L - 1) = 1 := by
      rw [← mul_pow]
      have hc : ωi * ω = 1 := by rw [mul_comm]; exact hginv
      rw [hc, one_pow]
    rw [hneg hL1] at hx
    have h2 : -(ωi ^ 2 ^ (L - 1)) = 1 := by rw [← mul_neg_one]; exact hx
    exact neg_eq_iff_eq_neg.mp h2
  have hplen : (resize v (2 ^ L) 0).length = 2 ^ L := resize_length v _ 0 hv
  have hfft : ∀ i, i < 2 ^ L →
      (best_fft (resize v (2 ^ L) 0) ω L).getD i 0
        = ∑ j ∈ Finset.range (2 ^ L), v.getD j 0 * ω ^ (i * j) := by
    intro i hi
    unfold best_fft
    rw [hplen, map_range_getD _ _ _ _ hi]
    have hfun : (fun t => (resize v (2 ^ L) 0).getD t 0) = (fun t => v.getD t 0) := by
      funext t
      exact resize_getD v _ t 0 hv
    rw [hfun]
    exact serial_radix2_fft_dft L ω _ h1 hneg i hi
  have hfftlen : (best_fft (resize v (2 ^ L) 0) ω L).length = 2 ^ L := by
    rw [best_fft_length, hplen]
  have hresize2 : resize (best_fft (resize v (2 ^ L) 0) ω L) (2 ^ L) 0
      = best_fft (resize v (2 ^ L) 0) ω L :=
    resize_of_length_eq _ _ _ hfftlen
  rw [hresize2]
  have hlhs_len : ((best_fft (best_fft (resize v (2 ^ L) 0) ω L) ωi L).map
      (fun val => val * sinv)).length = 2 ^ L := by
    rw [List.length_map, best_fft_length, hfftlen]
  apply List.ext_getElem
  · rw [hlhs_len, List.length_append, List.length_replicate]
    omega
  · intro k hk1 hk2
    have hkn : k < 2 ^ L := by rw [hlhs_len] at hk1; exact hk1
    rw [← List.getD_eq_getElem _ 0 hk1, ← List.getD_eq_getElem _ 0 hk2]
    rw [best_fft_map_getD _ ωi L sinv k (by rw [hfftlen]; exact hkn)]
    rw [serial_radix2_fft_dft L ωi _ hi1 hnegi k hkn]
    have hsum : ∑ i ∈ Finset.range (2 ^ L),
        (best_fft (resize v (2 ^ L) 0) ω L).getD i 0 * ωi ^ (k * i)
        = ∑ j ∈ Finset.range (2 ^ L),
            v.getD j 0 * ∑ i ∈ Finset.range (2 ^ L), (ω ^ (j + (2 ^ L - 1) * k)) ^ i := by
      calc ∑ i ∈ Finset.range (2 ^ L),
          (best_fft (resize v (2 ^ L) 0) ω L).getD i 0 * ωi ^ (k * i)
          = ∑ i ∈ Finset.range (2 ^ L), ∑ j ∈ Finset.range (2 ^ L),
              v.getD j 0 * ω ^ (i * j) * ωi ^ (k * i) := by
            apply Finset.sum_congr rfl
            intro i hi
            rw [hfft i (Finset.mem_range.mp hi), Finset.sum_mul]
      _ = ∑ j ∈ Finset.range (2 ^ L), ∑ i ∈ Finset.range (2 ^ L),
              v.getD j 0 * ω ^ (i * j) * ωi ^ (k * i) := Finset.sum_comm
      _ = ∑ j ∈ Finset.range (2 ^ L),
              v.getD j 0 * ∑ i ∈ Finset.range (2 ^ L), (ω ^ (j + (2 ^ L - 1) * k)) ^ i := by
            apply Finset.sum_congr rfl
            intro j _
            rw [Finset.mul_sum]
            apply Finset.sum_congr rfl
            intro i _
            rw [hωi_eq, ← pow_mul ω (2 ^ L - 1) (k * i), mul_assoc, ← pow_add,
              ← pow_mul ω (j + (2 ^ L - 1) * k) i]
            congr 2
            ring
    rw [hsum]
    have hind : ∑ j ∈ Finset.range (2 ^ L),
        v.getD j 0 * ∑ i ∈ Finset.range (2 ^ L), (ω ^ (j + (2 ^ L - 1) * k)) ^ i
        = v.getD k 0 * ((2 ^ L : Nat) : F) := by
      have hstep : ∀ j ∈ Finset.range (2 ^ L),
          v.getD j 0 * ∑ i ∈ Finset.range (2 ^ L), (ω ^ (j + (2 ^ L - 1) * k)) ^ i
            = if j = k then v.getD j 0 * ((2 ^ L : Nat) : F) else 0 := by
        intro j hj
        rw [root_sum horder]
        rw [if_congr (dvd_inv_shift hnpos (Finset.mem_range.mp hj) hkn) rfl rfl]
        by_cases hjk : j = k
        · rw [if_pos hjk, if_pos hjk]
        · rw [if_neg hjk, if_neg hjk, mul_zero]
      rw [Finset.sum_congr rfl hstep, Finset.sum_ite_eq' (Finset.range (2 ^ L)) k,
        if_pos (Finset.mem_range.mpr hkn)]
    rw [hind, mul_assoc, hsinv, mul_one]
    -- the right-hand side entry is the padded vector entry
    have hrhs : v ++ List.replicate (2 ^ L - v.length) 0 = resize v (2 ^ L) 0 := by
      unfold resize
      rw [List.take_of_length_le hv]
    rw [hrhs, resize_getD v _ k 0 hv]

/-- A concrete domain over `ZMod 5`: size 4, generator 2 (a primitive 4th
root of unity), used only to witness C1. -/
def dW : EvaluationDomain (ZMod 5) := ⟨4, 2, 4, 4, 2, 3, 3⟩

/-- Witness for C1: over `ZMod 5`, `ifft (fft [1,2,3])` recovers `[1,2,3]`
padded with one zero. -/
theorem claim_C1_witness :
    (dW.size = 2 ^ dW.log_size_of_group
      ∧ dW.group_gen ^ dW.size = 1
      ∧ dW.group_gen ^ 2 ^ (dW.log_size_of_group - 1) ≠ 1
      ∧ dW.group_gen * dW.group_gen_inv = 1
      ∧ ((dW.size : ZMod 5) * dW.size_inv = 1)
      ∧ ([(1:ZMod 5), 2, 3]).length ≤ dW.size)
    ∧ dW.ifft (dW.fft [(1:ZMod 5), 2, 3])
        = [(1:ZMod 5), 2, 3] ++ List.replicate (dW.size - [(1:ZMod 5), 2, 3].length) 0 :=
  ⟨⟨by decide, by decide, by decide, by decide, by decide, by decide⟩,
   claim_C1 dW (by decide) (by decide) (fun _ => by decide) (by decide) (by decide)
     [(1:ZMod 5), 2, 3] (by decide)⟩

/-! ## `evaluate_all_lagrange_coefficients` (`domain.rs`, lines 201-235) -/

/-- Modelled from the spec: `batch_inversion` (snarkvm_fields, not among the
sources under verification) "batch-inverts all `u_i` in one pass (amortized
field inversion)"; every element is replaced by its inverse.  (Mathlib's
`0⁻¹ = 0` also matches the skip-zeros behaviour of the Montgomery trick,
though the use site never passes a zero.) -/
def batch_inversion {F : Type _} [Field F] (l : List F) : List F :=
  l.map (fun x => x⁻¹)

/-- The in-domain branch (`domain.rs`, lines 207-216): scan the group
elements, write a single 1 at the first position equal to `tau`, then break
(every other entry stays 0).  Arguments: remaining count, current power
`omega_i`. -/
def lagrange_in_domain {F : Type _} [Field F] [DecidableEq F] (group_gen tau : F) :
    Nat → F → List F
  | 0, _ => []
  | k + 1, omega_i =>
    if omega_i = tau then 1 :: List.replicate k 0
    else 0 :: lagrange_in_domain group_gen tau k (omega_i * group_gen)

/-- The accumulation loop of the out-of-domain branch (`domain.rs`, lines
218-227): build `u` (entries `tau - r`) and `ls` (entries `l`), with `l` and
`r` each multiplied by `group_gen` per iteration. -/
def lagrange_l_r {F : Type _} [Field F] (group_gen tau : F) :
    Nat → F → F → (List F × List F)
  | 0, _, _ => ([], [])
  | k + 1, l, r =>
    let rest := lagrange_l_r group_gen tau k (l * group_gen) (r * group_gen)
    ((tau - r) :: rest.1, l :: rest.2)

/-- `evaluate_all_lagrange_coefficients` (`domain.rs`, lines 201-235). -/
def evaluate_all_lagrange_coefficients {F : Type _} [Field F] [DecidableEq F]
    (d : EvaluationDomain F) (tau : F) : List F :=
  let t_size := tau ^ d.size
  if t_size = 1 then
    lagrange_in_domain d.group_gen tau d.size 1
  else
    let ul := lagrange_l_r d.group_gen tau d.size ((t_size - 1) * d.size_inv) 1
    List.zipWith (fun tau_minus_r l => l * tau_minus_r) (batch_inversion ul.1) ul.2

theorem lagrange_l_r_spec {F : Type _} [Field F] (g tau : F) :
    ∀ k l r, lagrange_l_r g tau k l r
      = ((List.range k).map (fun i => tau - r * g ^ i),
         (List.range k).map (fun i => l * g ^ i)) := by
  intro k
  induction k with
  | zero => intro l r; simp [lagrange_l_r]
  | succ k ih =>
    intro l r
    rw [lagrange_l_r, ih (l * g) (r * g), List.range_succ_eq_map, List.map_cons,
      List.map_cons, List.map_map, List.map_map]
    simp only [Prod.mk.injEq, List.cons.injEq]
    refine ⟨⟨?_, ?_⟩, ?_, ?_⟩
    · rw [pow_zero, mul_one]
    · apply List.map_congr_left
      intro i _
      show tau - r * g * g ^ i = tau - r * g ^ (i + 1)
      rw [pow_succ]
      ring
    · rw [pow_zero, mul_one]
    · apply List.map_congr_left
      intro i _
      show l * g * g ^ i = l * g ^ (i + 1)
      rw [pow_succ]
      ring

theorem lagrange_in_domain_spec {F : Type _} [Field F] [DecidableEq F] (g tau : F) :
    ∀ k w m0, m0 < k → w * g ^ m0 = tau → (∀ m, m < m0 → w * g ^ m ≠ tau) →
      lagrange_in_domain g tau k w
        = List.replicate m0 0 ++ 1 :: List.replicate (k - m0 - 1) 0 := by
  intro k
  induction k with
  | zero => intro w m0 h; omega
  | succ k ih =>
    intro w m0 hm0 hhit hmin
    rw [lagrange_in_domain]
    by_cases hw : w = tau
    · have hm00 : m0 = 0 := by
        by_contra hne
        exact hmin 0 (by omega) (by rw [pow_zero, mul_one]; exact hw)
      subst hm00
      rw [if_pos hw]
      simp
    · have hm0pos : 0 < m0 := by
        rcases Nat.eq_zero_or_pos m0 with h0 | h0
        · exfalso
          apply hw
          rw [h0, pow_zero, mul_one] at hhit
          exact hhit
        · exact h0
      rw [if_neg hw]
      have hrec := ih (w * g) (m0 - 1) (by omega)
        (by
          rw [mul_assoc, ← pow_succ']
          have he : (m0 - 1) + 1 = m0 := by omega
          rw [he]
          exact hhit)
        (by
          intro m hm
          rw [mul_assoc, ← pow_succ']
          exact hmin (m + 1) (by omega))
      rw [hrec]
      have hrep : m0 = (m0 - 1) + 1 := by omega
      have hsub : k - (m0 - 1) - 1 = (k + 1) - m0 - 1 := by omega
      rw [hsub]
      calc (0:F) :: (List.replicate (m0 - 1) 0 ++ 1 :: List.replicate ((k + 1) - m0 - 1) 0)
          = (0 :: List.replicate (m0 - 1) 0) ++ 1 :: List.replicate ((k + 1) - m0 - 1) 0 := rfl
      _ = List.replicate m0 0 ++ 1 :: List.replicate ((k + 1) - m0 - 1) 0 := by
            rw [← List.replicate_succ, ← hrep]

theorem replicate_getD {α : Type _} (x : α) :
    ∀ b k : Nat, (List.replicate b x).getD k x = x := by
  intro b
  induction b with
  | zero => intro k; simp
  | succ b ih =>
    intro k
    cases k with
    | zero => simp [List.replicate_succ]
    | succ k =>
      rw [List.replicate_succ, List.getD_cons_succ]
      exact ih k

theorem indicator_getD {F : Type _} [Field F] :
    ∀ a b k : Nat,
      (List.replicate a (0:F) ++ 1 :: List.replicate b 0).getD k 0
        = if k = a then 1 else 0 := by
  intro a
  induction a with
  | zero =>
    intro b k
    cases k with
    | zero => simp
    | succ k => simp [replicate_getD]
  | succ a ih =>
    intro b k
    rw [List.replicate_succ, List.cons_append]
    cases k with
    | zero => simp
    | succ k =>
      rw [List.getD_cons_succ, ih b k]
      by_cases h : k = a
      · rw [if_pos h, if_pos (by omega)]
      · rw [if_neg h, if_neg (by omega)]

theorem dvd_dom_shift {n s j : Nat} (hs : s < n) (hj : j < n) :
    n ∣ (n - s + j) ↔ j = s := by
  constructor
  · rintro ⟨t, ht⟩
    have ht1 : t = 1 := by
      rcases Nat.lt_trichotomy t 1 with h | h | h
      · have h0 : t = 0 := by omega
        subst h0
        simp at ht
        omega
      · exact h
      · have hml : n * 2 ≤ n * t := Nat.mul_le_mul_left n (by omega)
        omega
    subst ht1
    omega
  · intro heq
    subst heq
    have he : n - j + j = n := by omega
    rw [he]

theorem elc_in_domain {F : Type _} [Field F] [DecidableEq F] (d : EvaluationDomain F)
    (tau : F) (h : tau ^ d.size = 1) :
    evaluate_all_lagrange_coefficients d tau
      = lagrange_in_domain d.group_gen tau d.size 1 := by
  simp only [evaluate_all_lagrange_coefficients]
  rw [if_pos h]

theorem elc_out_domain {F : Type _} [Field F] [DecidableEq F] (d : EvaluationDomain F)
    (tau : F) (h : ¬ tau ^ d.size = 1) :
    evaluate_all_lagrange_coefficients d tau
      = List.zipWith (fun tau_minus_r l => l * tau_minus_r)
          (batch_inversion
            (lagrange_l_r d.group_gen tau d.size ((tau ^ d.size - 1) * d.size_inv) 1).1)
          (lagrange_l_r d.group_gen tau d.size ((tau ^ d.size - 1) * d.size_inv) 1).2 := by
  simp only [evaluate_all_lagrange_coefficients]
  rw [if_neg h]

theorem elc_out_getD {F : Type _} [Field F] [DecidableEq F] (d : EvaluationDomain F)
    (tau : F) (h : ¬ tau ^ d.size = 1) (i : Nat) (hi : i < d.size) :
    (evaluate_all_lagrange_coefficients d tau).getD i 0
      = (tau ^ d.size - 1) * d.size_inv * d.group_gen ^ i
          * (tau - d.group_gen ^ i)⁻¹ := by
  rw [elc_out_domain d tau h]
  simp only [lagrange_l_r_spec, batch_inversion, List.map_map,
    List.zipWith_map, List.zipWith_same]
  rw [map_range_getD _ _ _ _ hi]
  show ((tau ^ d.size - 1) * d.size_inv * d.group_gen ^ i)
      * (tau - 1 * d.group_gen ^ i)⁻¹ = _
  rw [one_mul]

theorem lagrange_hit {F : Type _} [Field F] [DecidableEq F] (d : EvaluationDomain F)
    (L : Nat) (hsize : d.size = 2 ^ L)
    (h1 : d.group_gen ^ 2 ^ L = 1)
    (hprim : 1 ≤ L → d.group_gen ^ 2 ^ (L - 1) ≠ 1)
    (tau : F) (htau : tau ^ d.size = 1) :
    ∃ m, m < d.size ∧ d.group_gen ^ m = tau
      ∧ (∀ t, t < d.size → d.group_gen ^ t = tau → t = m)
      ∧ evaluate_all_lagrange_coefficients d tau
          = List.replicate m 0 ++ 1 :: List.replicate (d.size - m - 1) 0 := by
  have horder := order_two_pow h1 hprim
  haveI : NeZero (2 ^ L) := ⟨by positivity⟩
  have hPR : IsPrimitiveRoot d.group_gen (2 ^ L) := ⟨h1, fun l hl => (horder l).mp hl⟩
  have htau2 : tau ^ 2 ^ L = 1 := by rw [← hsize]; exact htau
  obtain ⟨m, hm, hgm⟩ := hPR.eq_pow_of_pow_eq_one htau2
  have hmd : m < d.size := by rw [hsize]; exact hm
  have huniq : ∀ t, t < d.size → d.group_gen ^ t = tau → t = m := by
    intro t ht hgt
    apply hPR.pow_inj (by rw [← hsize]; exact ht) hm
    rw [hgt, hgm]
  refine ⟨m, hmd, hgm, huniq, ?_⟩
  rw [elc_in_domain d tau htau]
  apply lagrange_in_domain_spec d.group_gen tau d.size 1 m hmd
    (by rw [one_mul]; exact hgm)
  intro t ht hcon
  rw [one_mul] at hcon
  have := huniq t (lt_trans ht hmd) hcon
  omega

theorem lagrange_monomial_sum {F : Type _} [Field F] [DecidableEq F]
    (d : EvaluationDomain F) (L : Nat)
    (hsize : d.size = 2 ^ L)
    (h1 : d.group_gen ^ 2 ^ L = 1)
    (hprim : 1 ≤ L → d.group_gen ^ 2 ^ (L - 1) ≠ 1)
    (hsinv : (d.size : F) * d.size_inv = 1)
    (tau : F) (j : Nat) (hj : j < d.size) :
    ∑ i ∈ Finset.range d.size,
        (evaluate_all_lagrange_coefficients d tau).getD i 0 * (d.group_gen ^ i) ^ j
      = tau ^ j := by
  have horder := order_two_pow h1 hprim
  have hnpos : (0:Nat) < 2 ^ L := Nat.pos_pow_of_pos L (by omega)
  by_cases htau : tau ^ d.size = 1
  · obtain ⟨m, hmd, hgm, _, hL⟩ := lagrange_hit d L hsize h1 hprim tau htau
    rw [hL]
    have hstep : ∀ i ∈ Finset.range d.size,
        (List.replicate m (0:F) ++ 1 :: List.replicate (d.size - m - 1) 0).getD i 0
          * (d.group_gen ^ i) ^ j
        = if i = m then (d.group_gen ^ i) ^ j else 0 := by
      intro i _
      rw [indicator_getD]
      by_cases him : i = m
      · rw [if_pos him, if_pos him, one_mul]
      · rw [if_neg him, if_neg him, zero_mul]
    rw [Finset.sum_congr rfl hstep, Finset.sum_ite_eq' (Finset.range d.size) m,
      if_pos (Finset.mem_range.mpr hmd), hgm]
  · have hgn : ∀ i : Nat, (d.group_gen ^ i) ^ d.size = 1 := by
      intro i
      rw [← pow_mul, mul_comm, pow_mul, hsize, h1, one_pow]
    have hneq : ∀ i : Nat, tau - d.group_gen ^ i ≠ 0 := by
      intro i hcon
      apply htau
      have hti : tau = d.group_gen ^ i := sub_eq_zero.mp hcon
      rw [hti]
      exact hgn i
    have hclosed : ∀ i : Nat,
        (tau ^ d.size - 1) * d.size_inv * d.group_gen ^ i * (tau - d.group_gen ^ i)⁻¹
          = d.size_inv * ∑ s ∈ Finset.range d.size,
              tau ^ s * (d.group_gen ^ i) ^ (d.size - s) := by
      intro i
      have hkey : (∑ s ∈ Finset.range d.size, tau ^ s * (d.group_gen ^ i) ^ (d.size - s))
          * (tau - d.group_gen ^ i)
          = (tau ^ d.size - 1) * d.group_gen ^ i := by
        have hgeom := geom_sum₂_mul tau (d.group_gen ^ i) d.size
        rw [hgn i] at hgeom
        have hshift : ∑ s ∈ Finset.range d.size, tau ^ s * (d.group_gen ^ i) ^ (d.size - s)
            = (∑ s ∈ Finset.range d.size, tau ^ s * (d.group_gen ^ i) ^ (d.size - 1 - s))
                * d.group_gen ^ i := by
          rw [Finset.sum_mul]
          apply Finset.sum_congr rfl
          intro s hs
          have hse : d.size - s = (d.size - 1 - s) + 1 := by
            have := Finset.mem_range.mp hs
            omega
          rw [hse, pow_succ]
          ring
        rw [hshift]
        calc ((∑ s ∈ Finset.range d.size, tau ^ s * (d.group_gen ^ i) ^ (d.size - 1 - s))
              * d.group_gen ^ i) * (tau - d.group_gen ^ i)
            = ((∑ s ∈ Finset.range d.size, tau ^ s * (d.group_gen ^ i) ^ (d.size - 1 - s))
              * (tau - d.group_gen ^ i)) * d.group_gen ^ i := by ring
        _ = (tau ^ d.size - 1) * d.group_gen ^ i := by rw [hgeom]
      have hsum_eq : (∑ s ∈ Finset.range d.size, tau ^ s * (d.group_gen ^ i) ^ (d.size - s))
          = (tau ^ d.size - 1) * d.group_gen ^ i * (tau - d.group_gen ^ i)⁻¹ :=
        (eq_mul_inv_iff_mul_eq₀ (hneq i)).mpr hkey
      rw [hsum_eq]
      ring
    have hLval : ∀ i ∈ Finset.range d.size,
        (evaluate_all_lagrange_coefficients d tau).getD i 0 * (d.group_gen ^ i) ^ j
          = d.size_inv * ∑ s ∈ Finset.range d.size,
              tau ^ s * (d.group_gen ^ (d.size - s + j)) ^ i := by
      intro i hi
      rw [elc_out_getD d tau htau i (Finset.mem_range.mp hi), hclosed i,
        mul_assoc, Finset.sum_mul]
      congr 1
      apply Finset.sum_congr rfl
      intro s _
      rw [mul_assoc]
      congr 1
      rw [← pow_add, ← pow_mul, mul_comm i (d.size - s + j), pow_mul]
    rw [Finset.sum_congr rfl hLval, ← Finset.mul_sum, Finset.sum_comm]
    have hinner : ∀ s ∈ Finset.range d.size,
        ∑ i ∈ Finset.range d.size, tau ^ s * (d.group_gen ^ (d.size - s + j)) ^ i
          = if s = j then tau ^ s * ((2 ^ L : Nat) : F) else 0 := by
      intro s hs
      rw [← Finset.mul_sum]
      have hroot : ∑ i ∈ Finset.range d.size, (d.group_gen ^ (d.size - s + j)) ^ i
          = if 2 ^ L ∣ (d.size - s + j) then ((2 ^ L : Nat) : F) else 0 := by
        rw [hsize]
        exact root_sum horder _
      rw [hroot]
      have hs2 : s < 2 ^ L := by rw [← hsize]; exact Finset.mem_range.mp hs
      have hj2 : j < 2 ^ L := by rw [← hsize]; exact hj
      have hdvd_iff : (2 ^ L ∣ (d.size - s + j)) ↔ j = s := by
        rw [hsize]
        exact dvd_dom_shift hs2 hj2
      by_cases hsj : s = j
      · rw [if_pos (hdvd_iff.mpr hsj.symm), if_pos hsj]
      · rw [if_neg (fun hc => hsj (hdvd_iff.mp hc).symm), if_neg hsj, mul_zero]
    rw [Finset.sum_congr rfl hinner, Finset.sum_ite_eq' (Finset.range d.size) j,
      if_pos (Finset.mem_range.mpr hj), ← hsize]
    calc d.size_inv * (tau ^ j * ((d.size : Nat) : F))
        = tau ^ j * (((d.size : Nat) : F) * d.size_inv) := by ring
    _ = tau ^ j := by rw [hsinv, mul_one]

/-- C5: for every domain (satisfying the domain invariants of §3) and every
point `tau`, the coefficient vector `L` returned by
`evaluate_all_lagrange_coefficients` satisfies the interpolation identity
`sum_i L[i] * p(omega^i) = p(tau)` for every polynomial `p` of degree < size
(given by its coefficient list); and when `tau^size = 1`, `L` is the indicator
vector with a single 1 at the unique position `m` with `omega^m = tau`. -/
theorem claim_C5 {F : Type _} [Field F] [DecidableEq F] (d : EvaluationDomain F)
    (hsize : d.size = 2 ^ d.log_size_of_group)
    (hgen1 : d.group_gen ^ d.size = 1)
    (hprim : 1 ≤ d.log_size_of_group → d.group_gen ^ 2 ^ (d.log_size_of_group - 1) ≠ 1)
    (hsinv : (d.size : F) * d.size_inv = 1)
    (tau : F) :
    (∀ c : List F,
      ∑ i ∈ Finset.range d.size,
          (evaluate_all_lagrange_coefficients d tau).getD i 0
            * (∑ j ∈ Finset.range d.size, c.getD j 0 * (d.group_gen ^ i) ^ j)
        = ∑ j ∈ Finset.range d.size, c.getD j 0 * tau ^ j)
    ∧ (tau ^ d.size = 1 →
        ∃ m, m < d.size ∧ d.group_gen ^ m = tau
          ∧ (∀ t, t < d.size → d.group_gen ^ t = tau → t = m)
          ∧ evaluate_all_lagrange_coefficients d tau
              = List.replicate m 0 ++ 1 :: List.replicate (d.size - m - 1) 0) := by
  have h1 : d.group_gen ^ 2 ^ d.log_size_of_group = 1 := by rw [← hsize]; exact hgen1
  constructor
  · intro c
    calc ∑ i ∈ Finset.range d.size,
          (evaluate_all_lagrange_coefficients d tau).getD i 0
            * (∑ j ∈ Finset.range d.size, c.getD j 0 * (d.group_gen ^ i) ^ j)
        = ∑ i ∈ Finset.range d.size, ∑ j ∈ Finset.range d.size,
            c.getD j 0 * ((evaluate_all_lagrange_coefficients d tau).getD i 0
              * (d.group_gen ^ i) ^ j) := by
          apply Finset.sum_congr rfl
          intro i _
          rw [Finset.mul_sum]
          apply Finset.sum_congr rfl
          intro j _
          ring
    _ = ∑ j ∈ Finset.range d.size, ∑ i ∈ Finset.range d.size,
            c.getD j 0 * ((evaluate_all_lagrange_coefficients d tau).getD i 0
              * (d.group_gen ^ i) ^ j) := Finset.sum_comm
    _ = ∑ j ∈ Finset.range d.size, c.getD j 0 * tau ^ j := by
          apply Finset.sum_congr rfl
          intro j hjm
          rw [← Finset.mul_sum,
            lagrange_monomial_sum d d.log_size_of_group hsize h1 hprim hsinv tau j
              (Finset.mem_range.mp hjm)]
  · intro htau
    exact lagrange_hit d d.log_size_of_group hsize h1 hprim tau htau

/-- Witness for C5: the concrete domain `dW` over `ZMod 5` (size 4, generator 2)
with `tau = 3` and the polynomial `1 + 2X + 3X^2 + 4X^3`. -/
theorem claim_C5_witness :
    (dW.size = 2 ^ dW.log_size_of_group
      ∧ dW.group_gen ^ dW.size = 1
      ∧ dW.group_gen ^ 2 ^ (dW.log_size_of_group - 1) ≠ 1
      ∧ ((dW.size : ZMod 5) * dW.size_inv = 1))
    ∧ ∑ i ∈ Finset.range dW.size,
        (evaluate_all_lagrange_coefficients dW (3 : ZMod 5)).getD i 0
          * (∑ j ∈ Finset.range dW.size,
              ([(1:ZMod 5), 2, 3, 4]).getD j 0 * (dW.group_gen ^ i) ^ j)
      = ∑ j ∈ Finset.range dW.size, ([(1:ZMod 5), 2, 3, 4]).getD j 0 * (3 : ZMod 5) ^ j :=
  ⟨⟨by decide, by decide, by decide, by decide⟩,
   (claim_C5 dW (by decide) (by decide) (fun _ => by decide) (by decide) (3 : ZMod 5)).1
     [(1:ZMod 5), 2, 3, 4]⟩

/-! ## `parallel_radix2_fft` (`domain.rs`, lines 463-499)

Each chunk `j` builds `tmp[j]` by the strided shuffle with the running
twiddle `elt`, runs the serial kernel on it with `omega^num_chunks`, and the
final pass reassembles `a[i] = tmp[i % num_chunks][i / num_chunks]`. -/

/-- Modelled from the spec: `F::k_adicity(2, n)` lives in `snarkvm_fields`
(not among the sources under verification); per the spec's §Glossary it is
the largest power of two dividing `n`, i.e. `trailing_zeros` on the
power-of-two sizes produced here. -/
def k_adicity_two (n : Nat) : Nat := trailing_zeros n

/-- One `s`-iteration of the shuffle: `tmp[i] += a[(i + s*m_div) % m] * elt;
elt *= omega_step` (state `(tmp, elt)`). -/
def shuffle_inner_step {F : Type _} [Field F] (a : Nat → F) (omega_step : F)
    (m m_div i : Nat) : Nat → (Nat → F) × F → (Nat → F) × F :=
  fun s st2 =>
    (upd st2.1 i (st2.1 i + a ((i + s * m_div) % m) * st2.2), st2.2 * omega_step)

/-- One `i`-iteration of the shuffle: the inner `s`-loop, then `elt *= omega_j`. -/
def shuffle_outer_step {F : Type _} [Field F] (a : Nat → F) (omega_j omega_step : F)
    (m m_div num_chunks : Nat) : Nat → (Nat → F) × F → (Nat → F) × F :=
  fun i st =>
    let inner := loopUpTo (shuffle_inner_step a omega_step m m_div i) num_chunks st
    (inner.1, inner.2 * omega_j)

/-- The complete shuffle for one chunk (`domain.rs`, lines 480-490): `tmp`
starts as zeros, `elt` as one. -/
def chunk_shuffle {F : Type _} [Field F] (a : Nat → F) (omega_j omega_step : F)
    (m m_div num_chunks : Nat) : Nat → F :=
  (loopUpTo (shuffle_outer_step a omega_j omega_step m m_div num_chunks) m_div
    ((fun _ => 0), 1)).1

/-- `parallel_radix2_fft` (`domain.rs`, lines 463-499): shuffle each chunk,
sub-FFT it with `new_omega = omega^num_chunks` and size
`k_adicity(2, m/num_chunks)`, and read entry `i` from chunk `i % num_chunks`
at position `i / num_chunks`. -/
def parallel_radix2_fft {F : Type _} [Field F] (a : Nat → F) (omega : F)
    (log_n log_cpus : Nat) : Nat → F :=
  let m := 2 ^ log_n
  let num_chunks := 2 ^ log_cpus
  let m_div_num_chunks := m / num_chunks
  let new_omega := omega ^ num_chunks
  let new_two_adicity := k_adicity_two m_div_num_chunks
  fun i =>
    serial_radix2_fft
      (chunk_shuffle a (omega ^ (i % num_chunks)) (omega ^ (i % num_chunks * m_div_num_chunks))
        m m_div_num_chunks num_chunks)
      new_omega new_two_adicity (i / num_chunks)

theorem parallel_radix2_fft_def {F : Type _} [Field F] (a : Nat → F) (omega : F)
    (log_n log_cpus i : Nat) :
    parallel_radix2_fft a omega log_n log_cpus i
      = serial_radix2_fft
          (chunk_shuffle a (omega ^ (i % 2 ^ log_cpus))
            (omega ^ (i % 2 ^ log_cpus * (2 ^ log_n / 2 ^ log_cpus)))
            (2 ^ log_n) (2 ^ log_n / 2 ^ log_cpus) (2 ^ log_cpus))
          (omega ^ 2 ^ log_cpus) (k_adicity_two (2 ^ log_n / 2 ^ log_cpus))
          (i / 2 ^ log_cpus) := rfl

theorem upd_id {α : Type _} (a : Nat → α) (i : Nat) : upd a i (a i) = a := by
  funext t
  by_cases h : t = i
  · rw [h, upd_same]
  · rw [upd_other a i t (a i) h]

theorem upd_upd {α : Type _} (a : Nat → α) (i : Nat) (u v : α) :
    upd (upd a i u) i v = upd a i v := by
  funext t
  by_cases h : t = i <;> simp [upd, h]

theorem shuffle_inner_spec {F : Type _} [Field F] (a : Nat → F) (omega_step : F)
    (m m_div i : Nat) :
    ∀ (cnt : Nat) (tmp : Nat → F) (elt : F),
      loopUpTo (shuffle_inner_step a omega_step m m_div i) cnt (tmp, elt)
        = (upd tmp i (tmp i + ∑ s ∈ Finset.range cnt,
              a ((i + s * m_div) % m) * (elt * omega_step ^ s)),
           elt * omega_step ^ cnt) := by
  intro cnt
  induction cnt with
  | zero =>
    intro tmp elt
    simp only [loopUpTo, Finset.range_zero, Finset.sum_empty, add_zero, pow_zero, mul_one]
    rw [upd_id]
  | succ cnt ih =>
    intro tmp elt
    rw [loopUpTo, ih tmp elt]
    simp only [shuffle_inner_step]
    rw [upd_same, upd_upd, Finset.sum_range_succ, pow_succ]
    rw [add_assoc, mul_assoc]

theorem chunk_shuffle_inv {F : Type _} [Field F] (a : Nat → F) (omega_j omega_step : F)
    (m m_div num_chunks : Nat) :
    ∀ t : Nat,
      loopUpTo (shuffle_outer_step a omega_j omega_step m m_div num_chunks) t
          ((fun _ => 0), 1)
        = ((fun x => if x < t then
              ∑ s ∈ Finset.range num_chunks,
                a ((x + s * m_div) % m)
                  * (omega_step ^ (x * num_chunks + s) * omega_j ^ x)
            else 0),
           omega_step ^ (t * num_chunks) * omega_j ^ t) := by
  intro t
  induction t with
  | zero =>
    simp only [loopUpTo, Nat.zero_mul, pow_zero, mul_one, Prod.mk.injEq]
    constructor
    · funext x
      rw [if_neg (by omega)]
    · trivial
  | succ t ih =>
    rw [loopUpTo]
    simp only [shuffle_outer_step, ih, shuffle_inner_spec, Prod.mk.injEq]
    constructor
    · funext x
      simp only [upd]
      by_cases hx : x = t
      · subst hx
        rw [if_pos rfl, if_neg (by omega), if_pos (by omega), zero_add]
        apply Finset.sum_congr rfl
        intro s _
        have hterm : omega_step ^ (x * num_chunks) * omega_j ^ x * omega_step ^ s
            = omega_step ^ (x * num_chunks + s) * omega_j ^ x := by
          rw [pow_add]
          ring
        rw [hterm]
      · rw [if_neg hx]
        by_cases hlt : x < t
        · rw [if_pos hlt, if_pos (by omega)]
        · rw [if_neg hlt, if_neg (by omega)]
    · have he : (t + 1) * num_chunks = t * num_chunks + num_chunks := by ring
      rw [he, pow_add, pow_succ]
      ring

theorem chunk_shuffle_spec {F : Type _} [Field F] (a : Nat → F) (omega_j omega_step : F)
    (m m_div num_chunks : Nat) (x : Nat) (hx : x < m_div) :
    chunk_shuffle a omega_j omega_step m m_div num_chunks x
      = ∑ s ∈ Finset.range num_chunks,
          a ((x + s * m_div) % m) * (omega_step ^ (x * num_chunks + s) * omega_j ^ x) := by
  unfold chunk_shuffle
  simp only [chunk_shuffle_inv]
  rw [if_pos hx]

theorem sum_range_mul_split {β : Type _} [AddCommMonoid β] (f : Nat → β) :
    ∀ (q md : Nat), ∑ v ∈ Finset.range (q * md), f v
      = ∑ s ∈ Finset.range q, ∑ u ∈ Finset.range md, f (s * md + u) := by
  intro q md
  induction q with
  | zero => simp
  | succ q ih =>
    have he : (q + 1) * md = q * md + md := by ring
    rw [he, Finset.sum_range_add, ih, Finset.sum_range_succ]

/-- C7: for every input of length `2^log_n`, every primitive `2^log_n`-th root
of unity `omega` and every `log_cpus ≤ log_n`, the parallel radix-2 kernel
agrees element-for-element with the serial kernel. -/
theorem claim_C7 {F : Type _} [Field F] (a : Nat → F) (omega : F) (log_n log_cpus : Nat)
    (hcpus : log_cpus ≤ log_n)
    (h1 : omega ^ 2 ^ log_n = 1)
    (hprim : 1 ≤ log_n → omega ^ 2 ^ (log_n - 1) ≠ 1) :
    ∀ i, i < 2 ^ log_n →
      parallel_radix2_fft a omega log_n log_cpus i = serial_radix2_fft a omega log_n i := by
  intro i hi
  have hneg : 1 ≤ log_n → omega ^ 2 ^ (log_n - 1) = -1 :=
    fun hL => primitive_neg_one hL h1 (hprim hL)
  have hncpos : (0:Nat) < 2 ^ log_cpus := Nat.pos_pow_of_pos log_cpus (by omega)
  have hmd : 2 ^ log_n / 2 ^ log_cpus = 2 ^ (log_n - log_cpus) :=
    Nat.pow_div hcpus (by omega)
  have hsplit : 2 ^ log_cpus * 2 ^ (log_n - log_cpus) = 2 ^ log_n := by
    rw [← pow_add]
    congr 1
    omega
  have h1' : (omega ^ 2 ^ log_cpus) ^ 2 ^ (log_n - log_cpus) = 1 := by
    rw [← pow_mul, hsplit, h1]
  have hneg' : 1 ≤ log_n - log_cpus →
      (omega ^ 2 ^ log_cpus) ^ 2 ^ (log_n - log_cpus - 1) = -1 := by
    intro hD1
    rw [← pow_mul, ← pow_add]
    have he : log_cpus + (log_n - log_cpus - 1) = log_n - 1 := by omega
    rw [he]
    exact hneg (by omega)
  have htlt : i / 2 ^ log_cpus < 2 ^ (log_n - log_cpus) := by
    refine (Nat.div_lt_iff_lt_mul hncpos).mpr ?_
    calc i < 2 ^ log_n := hi
    _ = 2 ^ (log_n - log_cpus) * 2 ^ log_cpus := by rw [mul_comm]; exact hsplit.symm
  have hj_eq : 2 ^ log_cpus * (i / 2 ^ log_cpus) + i % 2 ^ log_cpus = i :=
    Nat.div_add_mod i (2 ^ log_cpus)
  have habs : ∀ q r : Nat, omega ^ (2 ^ log_n * q + r) = omega ^ r := by
    intro q r
    rw [pow_add, pow_mul, h1, one_pow, one_mul]
  rw [parallel_radix2_fft_def, hmd]
  have hka : k_adicity_two (2 ^ (log_n - log_cpus)) = log_n - log_cpus :=
    trailing_zeros_two_pow _
  rw [hka]
  rw [serial_radix2_fft_dft (log_n - log_cpus) (omega ^ 2 ^ log_cpus)
    (chunk_shuffle a (omega ^ (i % 2 ^ log_cpus))
      (omega ^ (i % 2 ^ log_cpus * 2 ^ (log_n - log_cpus)))
      (2 ^ log_n) (2 ^ (log_n - log_cpus)) (2 ^ log_cpus))
    h1' hneg' (i / 2 ^ log_cpus) htlt]
  rw [serial_radix2_fft_dft log_n omega a h1 hneg i hi]
  have hchunk : ∀ u ∈ Finset.range (2 ^ (log_n - log_cpus)),
      chunk_shuffle a (omega ^ (i % 2 ^ log_cpus))
          (omega ^ (i % 2 ^ log_cpus * 2 ^ (log_n - log_cpus)))
          (2 ^ log_n) (2 ^ (log_n - log_cpus)) (2 ^ log_cpus) u
        * (omega ^ 2 ^ log_cpus) ^ (i / 2 ^ log_cpus * u)
      = ∑ s ∈ Finset.range (2 ^ log_cpus),
          a (s * 2 ^ (log_n - log_cpus) + u)
            * omega ^ (i * (s * 2 ^ (log_n - log_cpus) + u)) := by
    intro u hu
    have hu2 := Finset.mem_range.mp hu
    rw [chunk_shuffle_spec a _ _ _ _ _ u hu2, Finset.sum_mul]
    apply Finset.sum_congr rfl
    intro s hs
    have hs2 := Finset.mem_range.mp hs
    have hexp : (s + 1) * 2 ^ (log_n - log_cpus)
        = s * 2 ^ (log_n - log_cpus) + 2 ^ (log_n - log_cpus) := by ring
    have hsm : (s + 1) * 2 ^ (log_n - log_cpus)
        ≤ 2 ^ log_cpus * 2 ^ (log_n - log_cpus) :=
      Nat.mul_le_mul_right _ (by omega)
    have hbound : u + s * 2 ^ (log_n - log_cpus) < 2 ^ log_n := by omega
    have hidx : (u + s * 2 ^ (log_n - log_cpus)) % 2 ^ log_n
        = s * 2 ^ (log_n - log_cpus) + u := by
      rw [Nat.mod_eq_of_lt hbound, add_comm]
    rw [hidx]
    rw [← pow_mul omega (i % 2 ^ log_cpus * 2 ^ (log_n - log_cpus)) (u * 2 ^ log_cpus + s),
      ← pow_mul omega (i % 2 ^ log_cpus) u, ← pow_add, mul_assoc,
      ← pow_mul omega (2 ^ log_cpus) (i / 2 ^ log_cpus * u), ← pow_add]
    congr 1
    calc omega ^ (i % 2 ^ log_cpus * 2 ^ (log_n - log_cpus) * (u * 2 ^ log_cpus + s)
            + i % 2 ^ log_cpus * u + 2 ^ log_cpus * (i / 2 ^ log_cpus * u))
        = omega ^ (2 ^ log_n * (i % 2 ^ log_cpus * u)
            + (i % 2 ^ log_cpus * (2 ^ (log_n - log_cpus) * s) + i % 2 ^ log_cpus * u
               + 2 ^ log_cpus * (i / 2 ^ log_cpus * u))) := by
          congr 1
          rw [← hsplit]
          ring
    _ = omega ^ (i % 2 ^ log_cpus * (2 ^ (log_n - log_cpus) * s) + i % 2 ^ log_cpus * u
            + 2 ^ log_cpus * (i / 2 ^ log_cpus * u)) := habs _ _
    _ = omega ^ (2 ^ log_n * (i / 2 ^ log_cpus * s)
            + (i % 2 ^ log_cpus * (2 ^ (log_n - log_cpus) * s) + i % 2 ^ log_cpus * u
               + 2 ^ log_cpus * (i / 2 ^ log_cpus * u))) := (habs _ _).symm
    _ = omega ^ (i * (s * 2 ^ (log_n - log_cpus) + u)) := by
          congr 1
          have hrepl : i * (s * 2 ^ (log_n - log_cpus) + u)
              = (2 ^ log_cpus * (i / 2 ^ log_cpus) + i % 2 ^ log_cpus)
                  * (s * 2 ^ (log_n - log_cpus) + u) := by
            rw [hj_eq]
          rw [hrepl, ← hsplit]
          ring
  rw [Finset.sum_congr rfl hchunk, Finset.sum_comm, ← hsplit,
    sum_range_mul_split (fun v => a v * omega ^ (i * v)) (2 ^ log_cpus)
      (2 ^ (log_n - log_cpus))]

/-- Witness for C7 over `ZMod 5`: `log_n = 2`, `log_cpus = 1`, `omega = 2`,
input `[1, 2, 3, 4]`, compared at index 3. -/
theorem claim_C7_witness :
    ((1:Nat) ≤ 2 ∧ (2 : ZMod 5) ^ 2 ^ 2 = 1 ∧ (2 : ZMod 5) ^ 2 ^ (2 - 1) ≠ 1)
    ∧ parallel_radix2_fft aC2 (2 : ZMod 5) 2 1 3 = serial_radix2_fft aC2 (2 : ZMod 5) 2 3 :=
  ⟨⟨by decide, by decide, by decide⟩,
   claim_C7 aC2 (2 : ZMod 5) 2 1 (by decide) (by decide) (fun _ => by decide) 3 (by decide)⟩

end SnarkVM
